import Mathlib

/-!
Verification of the FEC-AL (fecal) forward-error-correction codec.

This file gives a shallow embedding, in Lean 4, of the fecal encoder and
decoder (sources `FecalCommon.h/.cpp`, `FecalEncoder.h/.cpp`,
`FecalDecoder.h/.cpp`) together with proofs of the behavioural claims made
by the specification.  Machine integers are modelled as `Nat` with explicit
`% 2^w` where wrap-around matters; byte buffers are `List Nat` whose
entries are bytes; fallible operations return a result code together with
the new state.

The GF(2^8) arithmetic primitives live in the external GF256 library
(`gf256.h/.cpp`, not part of the core sources); they are modelled from the
specification's contract (spec §6): `add` is XOR, `mul`/`div` are field
multiplication and division for a fixed irreducible polynomial (we use
x^8+x^4+x^3+x^2+1, i.e. 0x11D), and the `*_mem` bulk operations act
pointwise on the first `n` bytes of the destination.
-/

set_option maxHeartbeats 1000000
set_option maxRecDepth 10000

namespace Fecal

/-! ### Carry-less (GF(2)[x]) multiplication on bit-vectors encoded as `Nat` -/

/-- Carry-less product of two naturals viewed as polynomials over GF(2). -/
def clmul (a b : Nat) : Nat :=
  if a = 0 then 0
  else (if a % 2 = 1 then b else 0) ^^^ 2 * clmul (a / 2) b
termination_by a
decreasing_by exact Nat.div_lt_self (Nat.pos_of_ne_zero (by assumption)) (by norm_num)

theorem clmul_zero_left (b : Nat) : clmul 0 b = 0 := by
  rw [clmul]; simp

theorem clmul_eq_of_ne (a b : Nat) (h : a ≠ 0) :
    clmul a b = (if a % 2 = 1 then b else 0) ^^^ 2 * clmul (a / 2) b := by
  rw [clmul]; simp [h]

theorem clmul_zero_right (a : Nat) : clmul a 0 = 0 := by
  induction a using Nat.strong_induction_on with
  | _ a ih =>
    by_cases h : a = 0
    · subst h; exact clmul_zero_left 0
    · rw [clmul_eq_of_ne a 0 h, ih (a / 2) (Nat.div_lt_self (Nat.pos_of_ne_zero h) (by norm_num))]
      simp

theorem two_mul_xor (x y : Nat) : 2 * (x ^^^ y) = 2 * x ^^^ 2 * y := by
  have h : ∀ z : Nat, 2 * z = z <<< 1 := by
    intro z; rw [Nat.shiftLeft_eq]; ring
  rw [h, h, h]
  apply Nat.eq_of_testBit_eq
  intro i
  simp only [Nat.testBit_shiftLeft, Nat.testBit_xor]
  by_cases hi : 1 ≤ i <;> simp [hi]

theorem xor_left_comm (a b c : Nat) : a ^^^ (b ^^^ c) = b ^^^ (a ^^^ c) := by
  rw [← Nat.xor_assoc, Nat.xor_comm a b, Nat.xor_assoc]

theorem clmul_xor_right (a b c : Nat) : clmul a (b ^^^ c) = clmul a b ^^^ clmul a c := by
  induction a using Nat.strong_induction_on with
  | _ a ih =>
    by_cases h : a = 0
    · subst h; simp [clmul_zero_left]
    · rw [clmul_eq_of_ne a (b ^^^ c) h, clmul_eq_of_ne a b h, clmul_eq_of_ne a c h,
        ih (a / 2) (Nat.div_lt_self (Nat.pos_of_ne_zero h) (by norm_num)),
        two_mul_xor]
      by_cases hp : a % 2 = 1 <;>
        simp [hp, Nat.xor_assoc, Nat.xor_comm, xor_left_comm]

theorem clmul_two_mul_right (a b : Nat) : clmul a (2 * b) = 2 * clmul a b := by
  induction a using Nat.strong_induction_on with
  | _ a ih =>
    by_cases h : a = 0
    · subst h; simp [clmul_zero_left]
    · rw [clmul_eq_of_ne a (2 * b) h, clmul_eq_of_ne a b h,
        ih (a / 2) (Nat.div_lt_self (Nat.pos_of_ne_zero h) (by norm_num)), two_mul_xor]
      by_cases hp : a % 2 = 1 <;> simp [hp]

theorem clmul_one_left (b : Nat) : clmul 1 b = b := by
  rw [clmul_eq_of_ne 1 b (by norm_num)]
  norm_num [clmul_zero_left]

theorem clmul_two_mul_left (a b : Nat) : clmul (2 * a) b = 2 * clmul a b := by
  by_cases h : a = 0
  · subst h; simp [clmul_zero_left]
  · rw [clmul_eq_of_ne (2 * a) b (by omega)]
    have h1 : 2 * a % 2 = 0 := by omega
    have h2 : 2 * a / 2 = a := by omega
    rw [h1, h2]; simp

theorem xor_one_of_even (k : Nat) (h : k % 2 = 0) : k ^^^ 1 = k + 1 := by
  apply Nat.eq_of_testBit_eq
  intro i
  cases i with
  | zero =>
    simp [Nat.testBit_zero]
  | succ j =>
    rw [Nat.testBit_xor]
    have h1 : Nat.testBit 1 (j + 1) = false := by
      simp [Nat.testBit_succ]
    rw [h1]
    rw [Nat.testBit_succ, Nat.testBit_succ]
    have : (k + 1) / 2 = k / 2 := by omega
    simp [this]

theorem clmul_two_mul_add_one_left (a b : Nat) : clmul (2 * a + 1) b = b ^^^ 2 * clmul a b := by
  rw [clmul_eq_of_ne (2 * a + 1) b (by omega)]
  have h1 : (2 * a + 1) % 2 = 1 := by omega
  have h2 : (2 * a + 1) / 2 = a := by omega
  rw [h1, h2]; simp

theorem clmul_one_right (a : Nat) : clmul a 1 = a := by
  induction a using Nat.strong_induction_on with
  | _ a ih =>
    by_cases h : a = 0
    · subst h; exact clmul_zero_left 1
    · rw [clmul_eq_of_ne a 1 h, ih (a / 2) (Nat.div_lt_self (Nat.pos_of_ne_zero h) (by norm_num))]
      by_cases hp : a % 2 = 1
      · rw [if_pos hp, Nat.xor_comm, xor_one_of_even (2 * (a / 2)) (by omega)]
        omega
      · rw [if_neg hp, Nat.zero_xor]
        omega

theorem clmul_comm (a b : Nat) : clmul a b = clmul b a := by
  induction a using Nat.strong_induction_on with
  | _ a ih =>
    by_cases h : a = 0
    · subst h; simp [clmul_zero_left, clmul_zero_right]
    · have hdiv : a / 2 < a := Nat.div_lt_self (Nat.pos_of_ne_zero h) (by norm_num)
      by_cases hp : a % 2 = 1
      · have ha : a = 2 * (a / 2) + 1 := by omega
        calc clmul a b = clmul (2 * (a / 2) + 1) b := by rw [← ha]
          _ = b ^^^ 2 * clmul (a / 2) b := clmul_two_mul_add_one_left _ _
          _ = b ^^^ 2 * clmul b (a / 2) := by rw [ih (a / 2) hdiv]
          _ = clmul b 1 ^^^ clmul b (2 * (a / 2)) := by rw [clmul_one_right, clmul_two_mul_right]
          _ = clmul b (1 ^^^ 2 * (a / 2)) := by rw [← clmul_xor_right]
          _ = clmul b a := by
              rw [Nat.xor_comm, xor_one_of_even (2 * (a / 2)) (by omega)]
              congr 1
              omega
      · have ha : a = 2 * (a / 2) := by omega
        calc clmul a b = clmul (2 * (a / 2)) b := by rw [← ha]
          _ = 2 * clmul (a / 2) b := clmul_two_mul_left _ _
          _ = 2 * clmul b (a / 2) := by rw [ih (a / 2) hdiv]
          _ = clmul b (2 * (a / 2)) := by rw [clmul_two_mul_right]
          _ = clmul b a := by rw [← ha]

theorem clmul_xor_left (a b c : Nat) : clmul (a ^^^ b) c = clmul a c ^^^ clmul b c := by
  rw [clmul_comm, clmul_xor_right, clmul_comm c a, clmul_comm c b]

theorem clmul_assoc (a b c : Nat) : clmul (clmul a b) c = clmul a (clmul b c) := by
  induction a using Nat.strong_induction_on with
  | _ a ih =>
    by_cases h : a = 0
    · subst h; simp [clmul_zero_left]
    · have hdiv : a / 2 < a := Nat.div_lt_self (Nat.pos_of_ne_zero h) (by norm_num)
      by_cases hp : a % 2 = 1
      · have ha : a = 2 * (a / 2) + 1 := by omega
        rw [ha, clmul_two_mul_add_one_left, clmul_xor_left, clmul_two_mul_left,
          ih (a / 2) hdiv, clmul_two_mul_add_one_left]
      · have ha : a = 2 * (a / 2) := by omega
        rw [ha, clmul_two_mul_left, clmul_two_mul_left, ih (a / 2) hdiv, ← clmul_two_mul_left]

theorem clmul_pow_two_left (k b : Nat) : clmul (2 ^ k) b = b <<< k := by
  induction k with
  | zero => simp [clmul_one_left]
  | succ n ihn =>
    have : (2 : Nat) ^ (n + 1) = 2 * 2 ^ n := by ring
    rw [this, clmul_two_mul_left, ihn, Nat.shiftLeft_eq, Nat.shiftLeft_eq]
    ring

theorem clmul_lt (a b m n : Nat) (ha : a < 2 ^ m) (hb : b < 2 ^ n) :
    clmul a b < 2 ^ (m + n) := by
  induction m generalizing a with
  | zero =>
    have : a = 0 := by omega
    subst this
    rw [clmul_zero_left]
    exact Nat.two_pow_pos _
  | succ m ihm =>
    by_cases h : a = 0
    · subst h; rw [clmul_zero_left]; exact Nat.two_pow_pos _
    · rw [clmul_eq_of_ne a b h]
      have h2 : a / 2 < 2 ^ m := by
        have := Nat.pow_succ 2 m
        omega
      have h3 : clmul (a / 2) b < 2 ^ (m + n) := ihm (a / 2) h2
      have h4 : 2 * clmul (a / 2) b < 2 ^ (m + 1 + n) := by
        have : (2 : Nat) ^ (m + 1 + n) = 2 * 2 ^ (m + n) := by ring
        omega
      have h5 : (if a % 2 = 1 then b else 0) < 2 ^ (m + 1 + n) := by
        have hbig : (2:Nat) ^ n ≤ 2 ^ (m + 1 + n) := Nat.pow_le_pow_right (by norm_num) (by omega)
        by_cases hp : a % 2 = 1 <;> simp [hp] <;> omega
      exact Nat.xor_lt_two_pow h5 h4

/-! ### Reduction modulo the field polynomial 0x11D -/

/-- One conditional reduction step: clear bit `i` (8 ≤ i ≤ 14) by XORing a
shifted copy of the polynomial 0x11D = 285. -/
def reduceStep (i x : Nat) : Nat :=
  if x.testBit i then x ^^^ (285 <<< (i - 8)) else x

/-- Full reduction of a 15-bit carry-less product to a byte. -/
def reduce15 (x : Nat) : Nat :=
  reduceStep 8 (reduceStep 9 (reduceStep 10 (reduceStep 11
    (reduceStep 12 (reduceStep 13 (reduceStep 14 x))))))

theorem lt_two_pow_of_msb_false (x n : Nat) (hx : x < 2 ^ (n + 1))
    (hb : x.testBit n = false) : x < 2 ^ n := by
  apply Nat.lt_pow_two_of_testBit
  intro i hi
  rcases Nat.eq_or_lt_of_le hi with heq | hlt
  · subst heq; exact hb
  · exact Nat.testBit_lt_two_pow (lt_of_lt_of_le hx (Nat.pow_le_pow_right (by norm_num) hlt))

theorem reduceStep_lt (i x : Nat) (h8 : 8 ≤ i) (hx : x < 2 ^ (i + 1)) :
    reduceStep i x < 2 ^ i := by
  unfold reduceStep
  by_cases hb : x.testBit i
  · rw [if_pos hb]
    have hs : (285 <<< (i - 8)) < 2 ^ (i + 1) := by
      rw [Nat.shiftLeft_eq]
      have h1 : (285 : Nat) < 2 ^ 9 := by norm_num
      have h2 : (2 : Nat) ^ 9 * 2 ^ (i - 8) ≤ 2 ^ (i + 1) := by
        rw [← Nat.pow_add]
        exact Nat.pow_le_pow_right (by norm_num) (by omega)
      calc 285 * 2 ^ (i - 8) < 2 ^ 9 * 2 ^ (i - 8) := by
            apply Nat.mul_lt_mul_right (Nat.two_pow_pos _) |>.mpr h1
        _ ≤ 2 ^ (i + 1) := h2
    apply lt_two_pow_of_msb_false _ _ (Nat.xor_lt_two_pow hx hs)
    rw [Nat.testBit_xor, hb]
    have hsb : (285 <<< (i - 8)).testBit i = true := by
      rw [Nat.testBit_shiftLeft]
      have h158 : i - (i - 8) = 8 := by omega
      rw [h158]
      have hge : i - 8 ≤ i := by omega
      simp only [ge_iff_le, hge, decide_True, Bool.true_and]
      decide
    rw [hsb]
    rfl
  · rw [if_neg hb]
    exact lt_two_pow_of_msb_false _ _ hx (Bool.not_eq_true _ ▸ (by simpa using hb))

theorem reduce15_lt (x : Nat) (hx : x < 2 ^ 15) : reduce15 x < 256 := by
  unfold reduce15
  have h14 := reduceStep_lt 14 x (by norm_num) hx
  have h13 := reduceStep_lt 13 _ (by norm_num) h14
  have h12 := reduceStep_lt 12 _ (by norm_num) h13
  have h11 := reduceStep_lt 11 _ (by norm_num) h12
  have h10 := reduceStep_lt 10 _ (by norm_num) h11
  have h9 := reduceStep_lt 9 _ (by norm_num) h10
  have h8 := reduceStep_lt 8 _ (by norm_num) h9
  exact h8

/-! ### The congruence relation "differ by a multiple of 0x11D" -/

/-- `Rmod x y` holds when `x` and `y` differ by a carry-less multiple of the
field polynomial 0x11D. -/
def Rmod (x y : Nat) : Prop := ∃ m, x ^^^ y = clmul m 285

theorem Rmod.refl (x : Nat) : Rmod x x := ⟨0, by simp [clmul_zero_left]⟩

theorem Rmod.symm {x y : Nat} (h : Rmod x y) : Rmod y x := by
  obtain ⟨m, hm⟩ := h
  exact ⟨m, by rw [Nat.xor_comm]; exact hm⟩

theorem xor_eq_iff (x y z : Nat) : x ^^^ y = z ↔ x = z ^^^ y := by
  constructor
  · intro h; rw [← h, Nat.xor_assoc, Nat.xor_self, Nat.xor_zero]
  · intro h; rw [h, Nat.xor_assoc, Nat.xor_self, Nat.xor_zero]

theorem Rmod.trans {x y z : Nat} (h1 : Rmod x y) (h2 : Rmod y z) : Rmod x z := by
  obtain ⟨m1, hm1⟩ := h1
  obtain ⟨m2, hm2⟩ := h2
  refine ⟨m1 ^^^ m2, ?_⟩
  have hx : x ^^^ z = (x ^^^ y) ^^^ (y ^^^ z) := by
    rw [Nat.xor_assoc, ← Nat.xor_assoc y y z, Nat.xor_self, Nat.zero_xor]
  rw [hx, hm1, hm2, clmul_xor_left]

theorem Rmod.xorCongr {x y u v : Nat} (h1 : Rmod x y) (h2 : Rmod u v) :
    Rmod (x ^^^ u) (y ^^^ v) := by
  obtain ⟨m1, hm1⟩ := h1
  obtain ⟨m2, hm2⟩ := h2
  refine ⟨m1 ^^^ m2, ?_⟩
  rw [clmul_xor_left, ← hm1, ← hm2]
  rw [Nat.xor_assoc, Nat.xor_assoc]
  congr 1
  rw [← Nat.xor_assoc, Nat.xor_comm u y, Nat.xor_assoc]

theorem Rmod.clmulLeft {x y : Nat} (c : Nat) (h : Rmod x y) :
    Rmod (clmul x c) (clmul y c) := by
  obtain ⟨m, hm⟩ := h
  refine ⟨clmul m c, ?_⟩
  rw [← clmul_xor_left, hm, clmul_assoc, clmul_assoc, clmul_comm 285 c]

theorem Rmod.clmulRight {x y : Nat} (c : Nat) (h : Rmod x y) :
    Rmod (clmul c x) (clmul c y) := by
  rw [clmul_comm c x, clmul_comm c y]
  exact h.clmulLeft c

theorem clmul_poly_testBit_high (m : Nat) (hm : m ≠ 0) :
    ∃ k, (clmul m 285).testBit (k + 8) = true := by
  induction m using Nat.strong_induction_on with
  | _ m ih =>
    by_cases h1 : m = 1
    · subst h1
      refine ⟨0, ?_⟩
      rw [clmul_one_left]
      decide
    · by_cases hp : m % 2 = 1
      · have hm2 : m / 2 ≠ 0 := by omega
        obtain ⟨k, hk⟩ := ih (m / 2) (Nat.div_lt_self (Nat.pos_of_ne_zero hm) (by norm_num)) hm2
        refine ⟨k + 1, ?_⟩
        have hms : m = 2 * (m / 2) + 1 := by omega
        rw [hms, clmul_two_mul_add_one_left]
        rw [Nat.testBit_xor]
        have h285 : (285 : Nat).testBit (k + 1 + 8) = false := by
          apply Nat.testBit_lt_two_pow
          calc (285 : Nat) < 2 ^ 9 := by norm_num
            _ ≤ 2 ^ (k + 1 + 8) := Nat.pow_le_pow_right (by norm_num) (by omega)
        rw [h285]
        have : (2 * clmul (m / 2) 285).testBit (k + 1 + 8) = true := by
          have heq : 2 * clmul (m / 2) 285 = clmul (m / 2) 285 <<< 1 := by
            rw [Nat.shiftLeft_eq]; ring
          rw [heq, Nat.testBit_shiftLeft]
          have : k + 1 + 8 - 1 = k + 8 := by omega
          rw [this]
          simp [hk]
        rw [this]
        rfl
      · have hm2 : m / 2 ≠ 0 := by omega
        obtain ⟨k, hk⟩ := ih (m / 2) (Nat.div_lt_self (Nat.pos_of_ne_zero hm) (by norm_num)) hm2
        refine ⟨k + 1, ?_⟩
        have hms : m = 2 * (m / 2) := by omega
        rw [hms, clmul_two_mul_left]
        have heq : 2 * clmul (m / 2) 285 = clmul (m / 2) 285 <<< 1 := by
          rw [Nat.shiftLeft_eq]; ring
        rw [heq, Nat.testBit_shiftLeft]
        have : k + 1 + 8 - 1 = k + 8 := by omega
        rw [this]
        simp [hk]

theorem clmul_poly_ge (m : Nat) (hm : m ≠ 0) : 256 ≤ clmul m 285 := by
  obtain ⟨k, hk⟩ := clmul_poly_testBit_high m hm
  by_contra hlt
  push_neg at hlt
  have : (clmul m 285).testBit (k + 8) = false := by
    apply Nat.testBit_lt_two_pow
    calc clmul m 285 < 256 := hlt
      _ ≤ 2 ^ (k + 8) := by
        have : (256 : Nat) = 2 ^ 8 := by norm_num
        rw [this]
        exact Nat.pow_le_pow_right (by norm_num) (by omega)
  rw [this] at hk
  exact Bool.false_ne_true hk

theorem Rmod.unique {x y : Nat} (hx : x < 256) (hy : y < 256) (h : Rmod x y) : x = y := by
  obtain ⟨m, hm⟩ := h
  by_cases hm0 : m = 0
  · subst hm0
    rw [clmul_zero_left] at hm
    have := (xor_eq_iff x y 0).mp hm
    rwa [Nat.zero_xor] at this
  · exfalso
    have h1 : x ^^^ y < 256 := by
      have hx2 : x < 2 ^ 8 := by norm_num at hx ⊢; omega
      have hy2 : y < 2 ^ 8 := by norm_num at hy ⊢; omega
      have := Nat.xor_lt_two_pow hx2 hy2
      norm_num at this ⊢; omega
    rw [hm] at h1
    exact absurd h1 (Nat.not_lt.mpr (clmul_poly_ge m hm0))

theorem reduceStep_Rmod (i x : Nat) (h8 : 8 ≤ i) : Rmod (reduceStep i x) x := by
  unfold reduceStep
  by_cases hb : x.testBit i
  · rw [if_pos hb]
    refine ⟨2 ^ (i - 8), ?_⟩
    rw [Nat.xor_comm x (285 <<< (i - 8)), Nat.xor_assoc, Nat.xor_self, Nat.xor_zero,
      clmul_pow_two_left]
  · rw [if_neg hb]; exact Rmod.refl x

theorem reduce15_Rmod (x : Nat) : Rmod (reduce15 x) x := by
  unfold reduce15
  apply (reduceStep_Rmod 8 _ (by norm_num)).trans
  apply (reduceStep_Rmod 9 _ (by norm_num)).trans
  apply (reduceStep_Rmod 10 _ (by norm_num)).trans
  apply (reduceStep_Rmod 11 _ (by norm_num)).trans
  apply (reduceStep_Rmod 12 _ (by norm_num)).trans
  apply (reduceStep_Rmod 13 _ (by norm_num)).trans
  exact reduceStep_Rmod 14 _ (by norm_num)

/-! ### Executable GF(2^8) operations -/

/-- XOR of the partial products `b <<< i` over the low `n` bits of `a`
(an unrolled, structurally recursive carry-less multiply). -/
def bitSum : Nat → Nat → Nat → Nat
  | 0, _, _ => 0
  | n + 1, a, b => bitSum n a b ^^^ (if a.testBit n then b <<< n else 0)

theorem bitSum_congr (n a a2 b : Nat) (h : ∀ i, i < n → a.testBit i = a2.testBit i) :
    bitSum n a b = bitSum n a2 b := by
  induction n with
  | zero => rfl
  | succ n ihn =>
    unfold bitSum
    rw [ihn (fun i hi => h i (by omega)), h n (by omega)]

theorem xor_split_msb (a n : Nat) (ha : a < 2 ^ (n + 1)) :
    a = (a % 2 ^ n) ^^^ (if a.testBit n then 2 ^ n else 0) := by
  apply Nat.eq_of_testBit_eq
  intro j
  rw [Nat.testBit_xor, Nat.testBit_mod_two_pow]
  by_cases hj : j < n
  · have hmb : Nat.testBit (if a.testBit n then 2 ^ n else 0) j = false := by
      by_cases hb : a.testBit n <;> simp [hb, Nat.testBit_two_pow]
      omega
    simp [hj, hmb]
  · by_cases hjn : j = n
    · rw [hjn]
      have hb2 : Nat.testBit (if a.testBit n then 2 ^ n else 0) n = a.testBit n := by
        by_cases hb : a.testBit n <;> simp [hb, Nat.testBit_two_pow]
      simp [hb2]
    · have hgt : n < j := by omega
      have h1 : a.testBit j = false :=
        Nat.testBit_lt_two_pow (lt_of_lt_of_le ha (Nat.pow_le_pow_right (by norm_num) (by omega)))
      have h2 : Nat.testBit (if a.testBit n then 2 ^ n else 0) j = false := by
        by_cases hb : a.testBit n <;> simp [hb, Nat.testBit_two_pow]
        omega
      simp [hj, h1, h2]

theorem clmul_eq_bitSum (n a b : Nat) (ha : a < 2 ^ n) : clmul a b = bitSum n a b := by
  induction n generalizing a with
  | zero =>
    have : a = 0 := by simpa using ha
    subst this
    rw [clmul_zero_left]; rfl
  | succ n ihn =>
    have hsplit := xor_split_msb a n ha
    calc clmul a b = clmul ((a % 2 ^ n) ^^^ (if a.testBit n then 2 ^ n else 0)) b := by
          rw [← hsplit]
      _ = clmul (a % 2 ^ n) b ^^^ clmul (if a.testBit n then 2 ^ n else 0) b :=
          clmul_xor_left _ _ _
      _ = bitSum n (a % 2 ^ n) b ^^^ (if a.testBit n then b <<< n else 0) := by
          rw [ihn (a % 2 ^ n) (Nat.mod_lt _ (Nat.two_pow_pos _))]
          congr 1
          by_cases hb : a.testBit n <;> simp [hb, clmul_pow_two_left, clmul_zero_left]
      _ = bitSum n a b ^^^ (if a.testBit n then b <<< n else 0) := by
          rw [bitSum_congr n (a % 2 ^ n) a b]
          intro i hi
          rw [Nat.testBit_mod_two_pow]
          simp [hi]
      _ = bitSum (n + 1) a b := rfl

theorem bitSum_lt15 (n a b : Nat) (hn : n ≤ 8) (hb : b < 256) : bitSum n a b < 2 ^ 15 := by
  induction n with
  | zero => exact Nat.two_pow_pos _
  | succ n ihn =>
    unfold bitSum
    apply Nat.xor_lt_two_pow (ihn (by omega))
    by_cases hbit : a.testBit n
    · rw [if_pos hbit, Nat.shiftLeft_eq]
      have h7 : (2 : Nat) ^ n ≤ 2 ^ 7 := Nat.pow_le_pow_right (by norm_num) (by omega)
      calc b * 2 ^ n ≤ 255 * 2 ^ n := Nat.mul_le_mul (by omega) (Nat.le_refl _)
        _ ≤ 255 * 2 ^ 7 := Nat.mul_le_mul (Nat.le_refl 255) h7
        _ < 2 ^ 15 := by norm_num
    · rw [if_neg hbit]
      exact Nat.two_pow_pos _

/-- Modelled from the spec: `gf256_mul`, multiplication in GF(2^8) from the
external GF256 library (spec §6), with field polynomial 0x11D. -/
def gf256_mul (a b : Nat) : Nat := reduce15 (bitSum 8 a b)

/-- Modelled from the spec: `gf256_sqr` from the external GF256 library. -/
def gf256_sqr (a : Nat) : Nat := gf256_mul a a

theorem gf256_mul_eq_reduce_clmul (a b : Nat) (ha : a < 256) :
    gf256_mul a b = reduce15 (clmul a b) := by
  unfold gf256_mul
  rw [clmul_eq_bitSum 8 a b (by norm_num at ha ⊢; omega)]

theorem gf256_mul_lt (a b : Nat) (hb : b < 256) : gf256_mul a b < 256 := by
  unfold gf256_mul
  exact reduce15_lt _ (bitSum_lt15 8 a b (by norm_num) hb)

theorem gf256_mul_Rmod (a b : Nat) (ha : a < 256) : Rmod (gf256_mul a b) (clmul a b) := by
  rw [gf256_mul_eq_reduce_clmul a b ha]
  exact reduce15_Rmod _

theorem gf256_mul_comm (a b : Nat) (ha : a < 256) (hb : b < 256) :
    gf256_mul a b = gf256_mul b a := by
  apply Rmod.unique (gf256_mul_lt a b hb) (gf256_mul_lt b a ha)
  apply (gf256_mul_Rmod a b ha).trans
  rw [clmul_comm]
  exact (gf256_mul_Rmod b a hb).symm

theorem bitSum_zero_left (n b : Nat) : bitSum n 0 b = 0 := by
  induction n with
  | zero => rfl
  | succ n ihn => unfold bitSum; simp [ihn, Nat.zero_testBit]

theorem bitSum_zero_right (n a : Nat) : bitSum n a 0 = 0 := by
  induction n with
  | zero => rfl
  | succ n ihn => unfold bitSum; simp [ihn]

theorem gf256_mul_zero_left (b : Nat) : gf256_mul 0 b = 0 := by
  unfold gf256_mul
  rw [bitSum_zero_left]
  decide

theorem gf256_mul_zero_right (a : Nat) : gf256_mul a 0 = 0 := by
  unfold gf256_mul
  rw [bitSum_zero_right]
  decide

theorem gf256_mul_one_right (a : Nat) (ha : a < 256) : gf256_mul a 1 = a := by
  apply Rmod.unique (gf256_mul_lt a 1 (by norm_num)) ha
  have := gf256_mul_Rmod a 1 ha
  rwa [clmul_one_right] at this

theorem gf256_mul_one_left (b : Nat) (hb : b < 256) : gf256_mul 1 b = b := by
  rw [gf256_mul_comm 1 b (by norm_num) hb]
  exact gf256_mul_one_right b hb

theorem xor_lt_256 (x y : Nat) (hx : x < 256) (hy : y < 256) : x ^^^ y < 256 := by
  have h1 : x < 2 ^ 8 := by omega
  have h2 : y < 2 ^ 8 := by omega
  have h3 := Nat.xor_lt_two_pow h1 h2
  omega

theorem gf256_mul_xor_right (a b c : Nat) (ha : a < 256) (hb : b < 256) (hc : c < 256) :
    gf256_mul a (b ^^^ c) = gf256_mul a b ^^^ gf256_mul a c := by
  have hbc : b ^^^ c < 256 := xor_lt_256 b c hb hc
  apply Rmod.unique (gf256_mul_lt a _ hbc)
    (xor_lt_256 _ _ (gf256_mul_lt a b hb) (gf256_mul_lt a c hc))
  apply (gf256_mul_Rmod a _ ha).trans
  rw [clmul_xor_right]
  exact ((gf256_mul_Rmod a b ha).xorCongr (gf256_mul_Rmod a c ha)).symm

theorem gf256_mul_xor_left (a b c : Nat) (ha : a < 256) (hb : b < 256) (hc : c < 256) :
    gf256_mul (a ^^^ b) c = gf256_mul a c ^^^ gf256_mul b c := by
  have hab : a ^^^ b < 256 := xor_lt_256 a b ha hb
  rw [gf256_mul_comm _ c hab hc, gf256_mul_comm a c ha hc, gf256_mul_comm b c hb hc]
  exact gf256_mul_xor_right c a b hc ha hb

theorem gf256_mul_assoc (a b c : Nat) (ha : a < 256) (hb : b < 256) (hc : c < 256) :
    gf256_mul (gf256_mul a b) c = gf256_mul a (gf256_mul b c) := by
  have hab : gf256_mul a b < 256 := gf256_mul_lt a b hb
  have hbc : gf256_mul b c < 256 := gf256_mul_lt b c hc
  have r1 : Rmod (gf256_mul (gf256_mul a b) c) (clmul (gf256_mul a b) c) :=
    gf256_mul_Rmod _ c hab
  have r2 : Rmod (clmul (gf256_mul a b) c) (clmul (clmul a b) c) :=
    (gf256_mul_Rmod a b ha).clmulLeft c
  have r3 : Rmod (clmul (clmul a b) c) (clmul a (gf256_mul b c)) := by
    rw [clmul_assoc]
    exact ((gf256_mul_Rmod b c hb).clmulRight a).symm
  have r4 : Rmod (clmul a (gf256_mul b c)) (gf256_mul a (gf256_mul b c)) :=
    (gf256_mul_Rmod a _ ha).symm
  exact Rmod.unique (gf256_mul_lt _ c hc) (gf256_mul_lt a _ hbc)
    (((r1.trans r2).trans r3).trans r4)

/-! ### GF(2^8) inverses and division -/

/-- Modelled from the spec: multiplicative inverse table for GF(2^8) with
polynomial 0x11D (entry 0 is unused). -/
def invTableList : List Nat :=
  [0, 1, 142, 244, 71, 167, 122, 186, 173, 157, 221, 152, 61, 170, 93, 150, 216, 114, 192, 88,
   224, 62, 76, 102, 144, 222, 85, 128, 160, 131, 75, 42, 108, 237, 57, 81, 96, 86, 44, 138,
   112, 208, 31, 74, 38, 139, 51, 110, 72, 137, 111, 46, 164, 195, 64, 94, 80, 34, 207, 169,
   171, 12, 21, 225, 54, 95, 248, 213, 146, 78, 166, 4, 48, 136, 43, 30, 22, 103, 69, 147,
   56, 35, 104, 140, 129, 26, 37, 97, 19, 193, 203, 99, 151, 14, 55, 65, 36, 87, 202, 91,
   185, 196, 23, 77, 82, 141, 239, 179, 32, 236, 47, 50, 40, 209, 17, 217, 233, 251, 218, 121,
   219, 119, 6, 187, 132, 205, 254, 252, 27, 84, 161, 29, 124, 204, 228, 176, 73, 49, 39, 45,
   83, 105, 2, 245, 24, 223, 68, 79, 155, 188, 15, 92, 11, 220, 189, 148, 172, 9, 199, 162,
   28, 130, 159, 198, 52, 194, 70, 5, 206, 59, 13, 60, 156, 8, 190, 183, 135, 229, 238, 107,
   235, 242, 191, 175, 197, 100, 7, 123, 149, 154, 174, 182, 18, 89, 165, 53, 101, 184, 163, 158,
   210, 247, 98, 90, 133, 125, 168, 58, 41, 113, 200, 246, 249, 67, 215, 214, 16, 115, 118, 120,
   153, 10, 25, 145, 20, 63, 230, 240, 134, 177, 226, 241, 250, 116, 243, 180, 109, 33, 178, 106,
   227, 231, 181, 234, 3, 143, 211, 201, 66, 212, 232, 117, 127, 255, 126, 253]

/-- Modelled from the spec: GF(2^8) multiplicative inverse. -/
def gf256_inv (b : Nat) : Nat := invTableList.getD b 0

/-- Modelled from the spec: `gf256_div a b = a / b` in GF(2^8), implemented
as multiplication by the inverse of `b`. -/
def gf256_div (a b : Nat) : Nat := gf256_mul a (gf256_inv b)

theorem gf256_inv_mul_self : ∀ b : Fin 256, b.val ≠ 0 → gf256_mul b.val (gf256_inv b.val) = 1 := by
  decide

theorem gf256_inv_lt : ∀ b : Fin 256, gf256_inv b.val < 256 := by
  decide

theorem invTableList_length : invTableList.length = 256 := by decide

theorem gf256_inv_lt_any (b : Nat) : gf256_inv b < 256 := by
  by_cases hb : b < 256
  · exact gf256_inv_lt ⟨b, hb⟩
  · unfold gf256_inv
    rw [List.getD_eq_default]
    · norm_num
    · rw [invTableList_length]; omega

theorem gf256_mul_inv_cancel (b : Nat) (hb : b < 256) (hb0 : b ≠ 0) :
    gf256_mul b (gf256_inv b) = 1 :=
  gf256_inv_mul_self ⟨b, hb⟩ hb0

theorem gf256_div_lt (a b : Nat) : gf256_div a b < 256 :=
  gf256_mul_lt a _ (gf256_inv_lt_any b)

theorem gf256_div_mul_cancel (a b : Nat) (ha : a < 256) (hb : b < 256) (hb0 : b ≠ 0) :
    gf256_mul (gf256_div a b) b = a := by
  unfold gf256_div
  rw [gf256_mul_assoc a (gf256_inv b) b ha (gf256_inv_lt_any b) hb,
    gf256_mul_comm (gf256_inv b) b (gf256_inv_lt_any b) hb,
    gf256_mul_inv_cancel b hb hb0, gf256_mul_one_right a ha]

theorem gf256_mul_div_cancel (x d : Nat) (hx : x < 256) (hd : d < 256) (hd0 : d ≠ 0) :
    gf256_div (gf256_mul d x) d = x := by
  unfold gf256_div
  rw [gf256_mul_comm d x hd hx,
    gf256_mul_assoc x d (gf256_inv d) hx hd (gf256_inv_lt_any d),
    gf256_mul_inv_cancel d hd hd0, gf256_mul_one_right x hx]

/-! ### Code parameters: `GetColumnValue`, `GetRowValue`, `GetRowOpcode` (FecalCommon.h) -/

/-- `kColumnValuePeriod` from FecalCommon.h. -/
def kColumnValuePeriod : Nat := 253

/-- `kRowValuePeriod` from FecalCommon.h. -/
def kRowValuePeriod : Nat := 255

/-- `GetColumnValue` from FecalCommon.h: `(uint8_t)(3 + (column * 199) % 253)`. -/
def GetColumnValue (column : Nat) : Nat := 3 + (column * 199) % kColumnValuePeriod

/-- `GetRowValue` from FecalCommon.h: `(uint8_t)(1 + (row + 1) % 255)`. -/
def GetRowValue (row : Nat) : Nat := 1 + (row + 1) % kRowValuePeriod

/-- `kColumnLaneCount` from FecalCommon.h. -/
def kColumnLaneCount : Nat := 8

/-- `kColumnSumCount` from FecalCommon.h. -/
def kColumnSumCount : Nat := 3

/-- `kPairAddRate` from FecalCommon.h. -/
def kPairAddRate : Nat := 16

/-- Truncation to 32 bits (C `unsigned` arithmetic wraps modulo 2^32). -/
def u32 (x : Nat) : Nat := x % 4294967296

/-- Bitwise complement on 32-bit values (for `x < 2^32`). -/
def not32 (x : Nat) : Nat := x ^^^ 4294967295

/-- `Int32Hash` from FecalCommon.h (Thomas Wang's 32-bit integer hash),
modelled on 32-bit values with explicit wrap-around. -/
def Int32Hash (key0 : Nat) : Nat :=
  let key1 := u32 (key0 + not32 (u32 (key0 <<< 15)))
  let key2 := key1 ^^^ (key1 >>> 10)
  let key3 := u32 (key2 + u32 (key2 <<< 3))
  let key4 := key3 ^^^ (key3 >>> 6)
  let key5 := u32 (key4 + not32 (u32 (key4 <<< 11)))
  key5 ^^^ (key5 >>> 16)

/-- `GetRowOpcode` from FecalCommon.h: hash of `lane + (row + 3) * 8`, masked
to 6 bits, with 0 replaced by `0x10`. -/
def GetRowOpcode (lane row : Nat) : Nat :=
  let opcode := Int32Hash (u32 (lane + (row + 3) * 8)) &&& 63
  if opcode = 0 then 16 else opcode

theorem getColumnValue_lt (c : Nat) : GetColumnValue c < 256 := by
  unfold GetColumnValue
  have : (c * 199) % kColumnValuePeriod < 253 := Nat.mod_lt _ (by norm_num [kColumnValuePeriod])
  unfold kColumnValuePeriod at *
  omega

theorem getColumnValue_pos (c : Nat) : GetColumnValue c ≠ 0 := by
  unfold GetColumnValue
  omega

theorem getRowValue_lt (r : Nat) : GetRowValue r < 256 := by
  unfold GetRowValue
  have : (r + 1) % kRowValuePeriod < 255 := Nat.mod_lt _ (by norm_num [kRowValuePeriod])
  unfold kRowValuePeriod at *
  omega

theorem getRowValue_pos (r : Nat) : GetRowValue r ≠ 0 := by
  unfold GetRowValue
  omega

theorem getRowOpcode_lt (lane row : Nat) : GetRowOpcode lane row < 64 := by
  unfold GetRowOpcode
  have h1 : Int32Hash (u32 (lane + (row + 3) * 8)) &&& 63 < 64 := by
    have : Int32Hash (u32 (lane + (row + 3) * 8)) &&& 63 < 2 ^ 6 :=
      Nat.and_lt_two_pow _ (by norm_num)
    omega
  by_cases h : Int32Hash (u32 (lane + (row + 3) * 8)) &&& 63 = 0 <;> simp [h] <;> omega

/-- The parameter fields of `AppDataWindow` (FecalCommon.h). -/
structure AppDataWindow where
  InputCount : Nat
  TotalBytes : Nat
  FinalBytes : Nat
  SymbolBytes : Nat
deriving DecidableEq

/-- `AppDataWindow::SetParameters` from FecalCommon.cpp.  Returns `none`
exactly when the C code returns `false`.  `SymbolBytes` is computed with the
C code's `static_cast<unsigned>` 32-bit truncation. -/
def SetParameters (input_count total_bytes : Nat) : Option AppDataWindow :=
  if input_count = 0 ∨ total_bytes < input_count then none
  else
    let symbolBytes := u32 ((total_bytes + input_count - 1) / input_count)
    let finalBytes0 := u32 (total_bytes % symbolBytes)
    let finalBytes := if finalBytes0 = 0 then symbolBytes else finalBytes0
    some ⟨input_count, total_bytes, finalBytes, symbolBytes⟩

/-- `AppDataWindow::IsFinalColumn` from FecalCommon.h. -/
def AppDataWindow.IsFinalColumn (w : AppDataWindow) (column : Nat) : Bool :=
  column = w.InputCount - 1

/-- `AppDataWindow::GetColumnBytes` from FecalCommon.h. -/
def AppDataWindow.GetColumnBytes (w : AppDataWindow) (column : Nat) : Nat :=
  if w.IsFinalColumn column then w.FinalBytes else w.SymbolBytes

/-! ### Claim C3: parameter consistency -/

/-- C3 counterexample: `SetParameters` accepts `K = 3, T = 4` (since `T ≥ K`),
producing `B = 2, F = 2`, but then `(K-1)*B + F = 6 ≠ 4 = T`: the claimed
identity `(K-1)*B + F = T` fails on the code. -/
theorem C3_counterexample :
    SetParameters 3 4 = some ⟨3, 4, 2, 2⟩ ∧ ¬ ((3 - 1) * 2 + 2 = 4) := by
  constructor
  · decide
  · decide

/-- C3 (amended): for every `K ≥ 1`, `T ≥ K` accepted by `SetParameters`,
provided `⌈T/K⌉` fits in 32 bits (no `static_cast<unsigned>` truncation),
the computed parameters satisfy `B = ⌈T/K⌉` and `1 ≤ F ≤ B`; the identity
`(K-1)·B + F = T` additionally holds whenever `(K-1)·B < T`, i.e. whenever
the K-way split of T bytes has a non-empty final symbol. -/
theorem C3_parameter_consistency (K T : Nat) (w : AppDataWindow)
    (hw : SetParameters K T = some w) (hfit : (T + K - 1) / K < 4294967296) :
    w.SymbolBytes = (T + K - 1) / K ∧
    1 ≤ w.FinalBytes ∧ w.FinalBytes ≤ w.SymbolBytes ∧
    ((K - 1) * w.SymbolBytes < T → (K - 1) * w.SymbolBytes + w.FinalBytes = T) := by
  unfold SetParameters at hw
  by_cases hg : K = 0 ∨ T < K
  · rw [if_pos hg] at hw; exact absurd hw (by simp)
  · rw [if_neg hg] at hw
    push_neg at hg
    obtain ⟨hK0, hTK⟩ := hg
    have hK : 1 ≤ K := Nat.pos_of_ne_zero hK0
    simp only [Option.some.injEq] at hw
    subst hw
    simp only []
    set B := (T + K - 1) / K with hBdef
    have hBu : u32 B = B := Nat.mod_eq_of_lt hfit
    have hB1 : 1 ≤ B := by
      rw [hBdef]
      rw [Nat.one_le_div_iff hK]
      omega
    have hTle : T ≤ K * B := by
      have hdm := Nat.div_add_mod (T + K - 1) K
      have hr : (T + K - 1) % K < K := Nat.mod_lt _ hK
      rw [← hBdef] at hdm
      omega
    have hmodu : u32 (T % u32 B) = T % B := by
      rw [hBu]
      exact Nat.mod_eq_of_lt (lt_trans (Nat.mod_lt _ hB1) hfit)
    refine ⟨hBu, ?_, ?_, ?_⟩
    · rw [hmodu, hBu]
      by_cases hm : T % B = 0
      · rw [if_pos hm]; exact hB1
      · rw [if_neg hm]; omega
    · rw [hmodu, hBu]
      by_cases hm : T % B = 0
      · rw [if_pos hm]
      · rw [if_neg hm]
        exact Nat.le_of_lt (Nat.mod_lt _ hB1)
    · intro hlt
      rw [hBu] at hlt ⊢
      have hmodu2 : u32 (T % B) = T % B :=
        Nat.mod_eq_of_lt (lt_trans (Nat.mod_lt _ hB1) hfit)
      rw [hmodu2]
      have hexp : (K - 1) * B + B = K * B := by
        have hKm : K - 1 + 1 = K := by omega
        calc (K - 1) * B + B = (K - 1 + 1) * B := by ring
          _ = K * B := by rw [hKm]
      set d := T - (K - 1) * B with hddef
      have hd1 : 1 ≤ d := by omega
      have hdB : d ≤ B := by omega
      have hTd : T = d + (K - 1) * B := by omega
      have hTmod : T % B = d % B := by
        rw [hTd]
        exact Nat.add_mul_mod_self_right d (K - 1) B
      by_cases hdeq : d = B
      · have hm : T % B = 0 := by
          rw [hTmod, hdeq, Nat.mod_self]
        rw [if_pos hm]
        omega
      · have hm : T % B = d := by
          rw [hTmod]
          exact Nat.mod_eq_of_lt (by omega)
        rw [hm, if_neg (by omega)]
        omega

/-- C3 witness: with `K = 2, T = 3` the amended statement holds concretely
(`B = 2`, `F = 1`, and `1*2 + 1 = 3`). -/
theorem C3_witness :
    SetParameters 2 3 = some ⟨2, 3, 1, 2⟩ ∧ ((2 : Nat) - 1) * 2 + 1 = 3 := by
  refine ⟨by decide, ?_⟩
  have h := C3_parameter_consistency 2 3 ⟨2, 3, 1, 2⟩ (by decide) (by decide)
  have h2 := h.2.2.2 (by decide)
  simpa using h2

/-! ### Claim C5: `ColumnValue` is a permutation of {3..255} on 0..252 -/

/-- Truncation to 64 bits (C `uint64_t` arithmetic wraps modulo 2^64). -/
def u64 (x : Nat) : Nat := x % 18446744073709551616

/-- `PCGRandom` state from FecalCommon.h. -/
structure PCGRandom where
  State : Nat
  Inc : Nat
deriving DecidableEq

/-- `PCGRandom::Next` from FecalCommon.h: returns the 32-bit output and the
advanced generator. -/
def PCGRandom.next (p : PCGRandom) : Nat × PCGRandom :=
  let oldstate := p.State
  let newstate := u64 (oldstate * 6364136223846793005 + p.Inc)
  let xorshifted := u32 (((oldstate >>> 18) ^^^ oldstate) >>> 27)
  let rot := oldstate >>> 59
  let out := (xorshifted >>> rot) ||| u32 (xorshifted <<< ((4294967296 - rot) &&& 31))
  (out, ⟨newstate, p.Inc⟩)

/-- `PCGRandom::Seed(y, x)` from FecalCommon.h. -/
def PCGRandom.seed (y x : Nat) : PCGRandom :=
  let inc := u64 ((y <<< 1) ||| 1)
  let s1 := (PCGRandom.next ⟨0, inc⟩).2
  (PCGRandom.next ⟨u64 (s1.State + x), inc⟩).2

/-- Number of pair-draw iterations: `(InputCount + kPairAddRate - 1) / kPairAddRate`. -/
def pairCountOf (K : Nat) : Nat := (K + kPairAddRate - 1) / kPairAddRate

/-- Draw `n` pairs of column indices (each `Next() % K`) from the generator. -/
def pcgPairList : PCGRandom → Nat → Nat → List (Nat × Nat)
  | _, _, 0 => []
  | p, K, n + 1 =>
    let r1 := p.next
    let r2 := r1.2.next
    (r1.1 % K, r2.1 % K) :: pcgPairList r2.2 K n

/-- The complete pair-draw sequence used by `Encode`, `GenerateMatrix` and
`EliminateOriginalData` for a given `(row, K)`: the PRNG is seeded with
`(row, K)` and `⌈K/16⌉` pairs are drawn. -/
def pairDraws (row K : Nat) : List (Nat × Nat) :=
  pcgPairList (PCGRandom.seed row K) K (pairCountOf K)

theorem pairDraws_length (row K : Nat) : (pairDraws row K).length = pairCountOf K := by
  unfold pairDraws
  generalize PCGRandom.seed row K = p
  generalize pairCountOf K = n
  induction n generalizing p with
  | zero => rfl
  | succ n ihn => simp [pcgPairList, ihn]

theorem pairDraws_bounded (row K : Nat) (hK : 0 < K) :
    ∀ pr ∈ pairDraws row K, pr.1 < K ∧ pr.2 < K := by
  unfold pairDraws
  generalize PCGRandom.seed row K = p
  generalize pairCountOf K = n
  induction n generalizing p with
  | zero => intro pr hpr; simp [pcgPairList] at hpr
  | succ n ihn =>
    intro pr hpr
    simp only [pcgPairList, List.mem_cons] at hpr
    rcases hpr with heq | hmem
    · subst heq
      exact ⟨Nat.mod_lt _ hK, Nat.mod_lt _ hK⟩
    · exact ihn _ pr hmem

theorem pairCountOf_pos (K : Nat) (hK : 0 < K) : 0 < pairCountOf K := by
  unfold pairCountOf kPairAddRate
  omega

/-! ### Byte buffers and the bulk GF(2^8) memory primitives -/

/-- Byte `i` of a buffer (0 beyond the end). -/
def bget (l : List Nat) (i : Nat) : Nat := l.getD i 0

/-- Map a function of (index, value) over a list, starting at index `i`. -/
def mapWithIdx (f : Nat → Nat → Nat) : Nat → List Nat → List Nat
  | _, [] => []
  | i, d :: rest => f i d :: mapWithIdx f (i + 1) rest

theorem mapWithIdx_length (f : Nat → Nat → Nat) (i : Nat) (l : List Nat) :
    (mapWithIdx f i l).length = l.length := by
  induction l generalizing i with
  | nil => rfl
  | cons d rest ih => simp [mapWithIdx, ih]

theorem bget_mapWithIdx (f : Nat → Nat → Nat) (i j : Nat) (l : List Nat)
    (hj : j < l.length) : bget (mapWithIdx f i l) j = f (i + j) (bget l j) := by
  induction l generalizing i j with
  | nil => simp at hj
  | cons d rest ih =>
    cases j with
    | zero => simp [mapWithIdx, bget, List.getD]
    | succ j2 =>
      have hj2 : j2 < rest.length := by simp at hj; omega
      have := ih (i + 1) j2 hj2
      simp only [mapWithIdx, bget, List.getD_cons_succ] at this ⊢
      rw [this]
      congr 1
      omega

theorem bget_eq_zero_of_le (l : List Nat) (j : Nat) (h : l.length ≤ j) : bget l j = 0 := by
  unfold bget
  exact List.getD_eq_default _ _ h

/-- Modelled from the spec: `gf256_add_mem(dst, src, n)`:
`dst[i] ⊕= src[i]` for `i < n`. -/
def gf256_add_mem (dst src : List Nat) (n : Nat) : List Nat :=
  mapWithIdx (fun i d => if i < n then d ^^^ bget src i else d) 0 dst

/-- Modelled from the spec: `gf256_add2_mem(dst, a, b, n)`:
`dst[i] ⊕= a[i] ⊕ b[i]` for `i < n`. -/
def gf256_add2_mem (dst a b : List Nat) (n : Nat) : List Nat :=
  mapWithIdx (fun i d => if i < n then d ^^^ (bget a i ^^^ bget b i) else d) 0 dst

/-- Modelled from the spec: `gf256_muladd_mem(dst, y, src, n)`:
`dst[i] ⊕= mul(y, src[i])` for `i < n`. -/
def gf256_muladd_mem (dst : List Nat) (y : Nat) (src : List Nat) (n : Nat) : List Nat :=
  mapWithIdx (fun i d => if i < n then d ^^^ gf256_mul y (bget src i) else d) 0 dst

/-- Modelled from the spec: `gf256_div_mem(dst, src, y, n)` with `dst = src`
(the only aliasing used by the decoder): `dst[i] = div(src[i], y)` for `i < n`. -/
def gf256_div_mem (buf : List Nat) (y n : Nat) : List Nat :=
  mapWithIdx (fun i d => if i < n then gf256_div d y else d) 0 buf

theorem gf256_add_mem_length (dst src : List Nat) (n : Nat) :
    (gf256_add_mem dst src n).length = dst.length := mapWithIdx_length _ _ _

theorem gf256_add2_mem_length (dst a b : List Nat) (n : Nat) :
    (gf256_add2_mem dst a b n).length = dst.length := mapWithIdx_length _ _ _

theorem gf256_muladd_mem_length (dst : List Nat) (y : Nat) (src : List Nat) (n : Nat) :
    (gf256_muladd_mem dst y src n).length = dst.length := mapWithIdx_length _ _ _

theorem gf256_div_mem_length (buf : List Nat) (y n : Nat) :
    (gf256_div_mem buf y n).length = buf.length := mapWithIdx_length _ _ _

theorem bget_add_mem (dst src : List Nat) (n j : Nat) (hj : j < dst.length) :
    bget (gf256_add_mem dst src n) j =
      if j < n then bget dst j ^^^ bget src j else bget dst j := by
  unfold gf256_add_mem
  rw [bget_mapWithIdx _ 0 j dst hj]
  simp

theorem bget_add2_mem (dst a b : List Nat) (n j : Nat) (hj : j < dst.length) :
    bget (gf256_add2_mem dst a b n) j =
      if j < n then bget dst j ^^^ (bget a j ^^^ bget b j) else bget dst j := by
  unfold gf256_add2_mem
  rw [bget_mapWithIdx _ 0 j dst hj]
  simp

theorem bget_muladd_mem (dst : List Nat) (y : Nat) (src : List Nat) (n j : Nat)
    (hj : j < dst.length) :
    bget (gf256_muladd_mem dst y src n) j =
      if j < n then bget dst j ^^^ gf256_mul y (bget src j) else bget dst j := by
  unfold gf256_muladd_mem
  rw [bget_mapWithIdx _ 0 j dst hj]
  simp

theorem bget_div_mem (buf : List Nat) (y n j : Nat) (hj : j < buf.length) :
    bget (gf256_div_mem buf y n) j =
      if j < n then gf256_div (bget buf j) y else bget buf j := by
  unfold gf256_div_mem
  rw [bget_mapWithIdx _ 0 j buf hj]
  simp

/-! ### `XORSummer` (FecalCommon.h, with the `FECAL_ADD2_OPT` pairing) -/

/-- `XORSummer` from FecalCommon.h.  `DestBuffer` holds the contents of the
destination buffer (owned by the summer for the duration of the pass);
`Waiting` is the deferred source of the add2 pairing optimisation. -/
structure XORSummer where
  DestBuffer : List Nat
  Bytes : Nat
  Waiting : Option (List Nat)
deriving DecidableEq

/-- `XORSummer::Initialize`. -/
def XORSummer.Initialize (dest : List Nat) (bytes : Nat) : XORSummer := ⟨dest, bytes, none⟩

/-- `XORSummer::Add` (the `FECAL_ADD2_OPT` version). -/
def XORSummer.add (s : XORSummer) (src : List Nat) : XORSummer :=
  match s.Waiting with
  | some w => ⟨gf256_add2_mem s.DestBuffer src w s.Bytes, s.Bytes, none⟩
  | none => ⟨s.DestBuffer, s.Bytes, some src⟩

/-- A direct `gf256_add_mem` into the summer's destination buffer, as done
for final-column contributions while a summer is live on the same buffer. -/
def XORSummer.addDirect (s : XORSummer) (src : List Nat) (n : Nat) : XORSummer :=
  ⟨gf256_add_mem s.DestBuffer src n, s.Bytes, s.Waiting⟩

/-- `XORSummer::Finalize`, returning the final buffer contents. -/
def XORSummer.finalize (s : XORSummer) : List Nat :=
  match s.Waiting with
  | some w => gf256_add_mem s.DestBuffer w s.Bytes
  | none => s.DestBuffer

theorem XORSummer.finalize_length (s : XORSummer) :
    s.finalize.length = s.DestBuffer.length := by
  unfold XORSummer.finalize
  cases s.Waiting <;> simp [gf256_add_mem_length]

theorem XORSummer.add_dest_length (s : XORSummer) (src : List Nat) :
    (s.add src).DestBuffer.length = s.DestBuffer.length := by
  unfold XORSummer.add
  cases s.Waiting <;> simp [gf256_add2_mem_length]

theorem XORSummer.add_bytes (s : XORSummer) (src : List Nat) :
    (s.add src).Bytes = s.Bytes := by
  unfold XORSummer.add
  cases s.Waiting <;> simp

theorem XORSummer.addDirect_dest_length (s : XORSummer) (src : List Nat) (n : Nat) :
    (s.addDirect src n).DestBuffer.length = s.DestBuffer.length := by
  unfold XORSummer.addDirect
  simp [gf256_add_mem_length]

theorem XORSummer.addDirect_bytes (s : XORSummer) (src : List Nat) (n : Nat) :
    (s.addDirect src n).Bytes = s.Bytes := by
  rfl

theorem XORSummer.bget_finalize_add (s : XORSummer) (src : List Nat) (j : Nat)
    (hj : j < s.DestBuffer.length) :
    bget (s.add src).finalize j =
      if j < s.Bytes then bget s.finalize j ^^^ bget src j else bget s.finalize j := by
  rcases s with ⟨dest, bytes, waiting⟩
  cases waiting with
  | none =>
    simp only [XORSummer.add, XORSummer.finalize]
    rw [bget_add_mem dest src bytes j hj]
  | some w =>
    simp only [XORSummer.add, XORSummer.finalize]
    rw [bget_add2_mem dest src w bytes j hj, bget_add_mem dest w bytes j hj]
    by_cases hb : j < bytes <;> simp [hb]
    rw [Nat.xor_comm (bget src j) (bget w j), ← Nat.xor_assoc]

theorem XORSummer.bget_finalize_addDirect (s : XORSummer) (src : List Nat) (n j : Nat)
    (hj : j < s.DestBuffer.length) :
    bget (s.addDirect src n).finalize j =
      if j < n then bget s.finalize j ^^^ bget src j else bget s.finalize j := by
  rcases s with ⟨dest, bytes, waiting⟩
  cases waiting with
  | none =>
    simp only [XORSummer.addDirect, XORSummer.finalize]
    rw [bget_add_mem dest src n j hj]
  | some w =>
    simp only [XORSummer.addDirect, XORSummer.finalize]
    rw [bget_add_mem _ w bytes j (by rw [gf256_add_mem_length]; exact hj),
      bget_add_mem dest src n j hj, bget_add_mem dest w bytes j hj]
    by_cases hb : j < bytes <;> by_cases hn : j < n <;> simp [hb, hn]
    rw [Nat.xor_assoc, Nat.xor_comm (bget src j) (bget w j), ← Nat.xor_assoc]

/-! ### Encoder (FecalEncoder.h/.cpp) -/

/-- `FecalResult` from fecal.h. -/
inductive FecalResult where
  | Success
  | NeedMoreData
  | InvalidInput
  | Platform
  | OutOfMemory
  | Unexpected
deriving DecidableEq

/-- `FecalSymbol` from fecal.h; `Data` holds the buffer contents. -/
structure FecalSymbol where
  Data : List Nat
  Bytes : Nat
  Index : Nat
deriving DecidableEq

/-- Columns of a lane below `columnEnd` in ascending order (the strided loop
`for (column = lane; column < columnEnd; column += 8)`). -/
def laneCols (lane columnEnd : Nat) : List Nat :=
  (List.range columnEnd).filter (fun c => c % kColumnLaneCount = lane)

/-- The first-iteration load of `Encoder::Encode`: `memcpy` of the column,
zero-padding the tail when the column is the (shorter) final one. -/
def loadSymbol (w : AppDataWindow) (data : List (List Nat)) (c : Nat) : List Nat :=
  if w.IsFinalColumn c then
    (data.getD c []).take w.FinalBytes ++ List.replicate (w.SymbolBytes - w.FinalBytes) 0
  else
    (data.getD c []).take w.SymbolBytes

/-- `Encoder::Initialize` lane-sum construction (FecalEncoder.cpp, with
`FECAL_ADD2_ENC_SETUP_OPT` enabled): sum 0 is the XOR of the lane's columns,
sums 1 and 2 accumulate `CX^s · column` with the final column clipped to
`FinalBytes`. -/
def encoderLaneSum (w : AppDataWindow) (data : List (List Nat)) (lane s : Nat) : List Nat :=
  if s = 0 then
    let summer0 := XORSummer.Initialize (List.replicate w.SymbolBytes 0) w.SymbolBytes
    let summer1 := (laneCols lane (w.InputCount - 1)).foldl
      (fun acc c => acc.add (data.getD c [])) summer0
    let summer2 :=
      if (w.InputCount - 1) % kColumnLaneCount = lane then
        summer1.addDirect (data.getD (w.InputCount - 1) []) w.FinalBytes
      else summer1
    summer2.finalize
  else
    (laneCols lane w.InputCount).foldl
      (fun acc c =>
        let CX := GetColumnValue c
        let v := if s = 2 then gf256_sqr CX else CX
        gf256_muladd_mem acc v (data.getD c []) (w.GetColumnBytes c))
      (List.replicate w.SymbolBytes 0)

/-- Encoder state (FecalEncoder.h).  `Initialized` models whether
`ProductWorkspace.Data` is non-null (i.e. `Initialize` succeeded). -/
structure Encoder where
  Window : AppDataWindow
  OriginalData : List (List Nat)
  LaneSums : List (List (List Nat))
  Initialized : Bool
deriving DecidableEq

/-- A default-constructed (uninitialized) encoder. -/
def Encoder.uninit : Encoder := ⟨⟨0, 0, 0, 0⟩, [], [], false⟩

/-- `Encoder::Initialize` from FecalEncoder.cpp (memory allocation always
succeeds in the model, so `OutOfMemory` is never returned). -/
def Encoder.Initialize (input_count : Nat) (input_data : List (List Nat)) (total_bytes : Nat) :
    FecalResult × Encoder :=
  match SetParameters input_count total_bytes with
  | none => (FecalResult.InvalidInput, Encoder.uninit)
  | some w =>
    let lanes := (List.range kColumnLaneCount).map (fun l =>
      (List.range kColumnSumCount).map (fun s => encoderLaneSum w input_data l s))
    (FecalResult.Success, ⟨w, input_data, lanes, true⟩)

/-- `LaneSums[lane][s]` of an encoder. -/
def Encoder.laneSum (e : Encoder) (lane s : Nat) : List Nat :=
  (e.LaneSums.getD lane []).getD s []

/-- One non-first pair-draw iteration of `Encoder::Encode`: XOR the two
drawn columns into the sum and product accumulators (final-column draws use
a direct add of `FinalBytes` bytes). -/
def pairStep (w : AppDataWindow) (data : List (List Nat)) (sp : XORSummer × XORSummer)
    (pr : Nat × Nat) : XORSummer × XORSummer :=
  (if w.IsFinalColumn pr.1 then sp.1.addDirect (data.getD pr.1 []) w.FinalBytes
   else sp.1.add (data.getD pr.1 []),
   if w.IsFinalColumn pr.2 then sp.2.addDirect (data.getD pr.2 []) w.FinalBytes
   else sp.2.add (data.getD pr.2 []))

/-- The pair-draw accumulation phase of `Encoder::Encode`: the first pair
initializes the two buffers, the remaining pairs are XORed in. -/
def encodePairPhase (w : AppDataWindow) (data : List (List Nat)) (row : Nat) :
    XORSummer × XORSummer :=
  match pairDraws row w.InputCount with
  | [] => (XORSummer.Initialize [] w.SymbolBytes, XORSummer.Initialize [] w.SymbolBytes)
  | (e1, eRX) :: rest =>
    let sum0 := XORSummer.Initialize (loadSymbol w data e1) w.SymbolBytes
    let prod0 := XORSummer.Initialize (loadSymbol w data eRX) w.SymbolBytes
    rest.foldl (pairStep w data) (sum0, prod0)

/-- One lane of the lane-sum accumulation of `Encoder::Encode`: opcode bits
0..2 select lane sums XORed into the sum accumulator, bits 3..5 into the
product accumulator. -/
def laneStep (laneSums : Nat → Nat → List Nat) (row : Nat) (sp2 : XORSummer × XORSummer)
    (lane : Nat) : XORSummer × XORSummer :=
  let opcode := GetRowOpcode lane row
  ((List.range kColumnSumCount).foldl
    (fun s si => if opcode.testBit si then s.add (laneSums lane si) else s) sp2.1,
   (List.range kColumnSumCount).foldl
    (fun s si => if opcode.testBit (kColumnSumCount + si) then s.add (laneSums lane si) else s)
    sp2.2)

/-- The lane-sum accumulation phase of `Encoder::Encode`. -/
def addLaneSums (laneSums : Nat → Nat → List Nat) (row : Nat) (sp : XORSummer × XORSummer) :
    XORSummer × XORSummer :=
  (List.range kColumnLaneCount).foldl (laneStep laneSums row) sp

/-- The successful path of `Encoder::Encode`: pair phase, lane-sum phase,
then `Sum += RX * Product`. -/
def encodeBody (w : AppDataWindow) (data : List (List Nat)) (laneSums : Nat → Nat → List Nat)
    (row : Nat) : List Nat :=
  let sp := addLaneSums laneSums row (encodePairPhase w data row)
  gf256_muladd_mem sp.1.finalize (GetRowValue row) sp.2.finalize w.SymbolBytes

/-- `Encoder::Encode` from FecalEncoder.cpp.  Returns the result code and the
contents of the caller's output buffer after the call. -/
def Encoder.Encode (e : Encoder) (sym : FecalSymbol) : FecalResult × List Nat :=
  if e.Initialized = false then (FecalResult.InvalidInput, sym.Data)
  else if sym.Bytes ≠ e.Window.SymbolBytes then (FecalResult.InvalidInput, sym.Data)
  else (FecalResult.Success, encodeBody e.Window e.OriginalData e.laneSum sym.Index)

/-- Well-formed input data for a parameter window: one symbol per column, of
the correct length, holding bytes. -/
def GoodData (w : AppDataWindow) (data : List (List Nat)) : Prop :=
  data.length = w.InputCount ∧
  (∀ c, c < w.InputCount → (data.getD c []).length = w.GetColumnBytes c) ∧
  (∀ c j : Nat, bget (data.getD c []) j < 256)

/-! ### Length preservation through the encode phases -/

theorem pairStep_lens (w : AppDataWindow) (data : List (List Nat)) (sp : XORSummer × XORSummer)
    (pr : Nat × Nat) :
    ((pairStep w data sp pr).1.DestBuffer.length = sp.1.DestBuffer.length ∧
     (pairStep w data sp pr).1.Bytes = sp.1.Bytes) ∧
    ((pairStep w data sp pr).2.DestBuffer.length = sp.2.DestBuffer.length ∧
     (pairStep w data sp pr).2.Bytes = sp.2.Bytes) := by
  unfold pairStep
  by_cases h1 : w.IsFinalColumn pr.1 <;> by_cases h2 : w.IsFinalColumn pr.2 <;>
    simp [h1, h2, XORSummer.add_dest_length, XORSummer.add_bytes,
      XORSummer.addDirect_dest_length, XORSummer.addDirect_bytes]

theorem foldl_pairStep_lens (w : AppDataWindow) (data : List (List Nat))
    (l : List (Nat × Nat)) (sp : XORSummer × XORSummer) :
    ((l.foldl (pairStep w data) sp).1.DestBuffer.length = sp.1.DestBuffer.length ∧
     (l.foldl (pairStep w data) sp).1.Bytes = sp.1.Bytes) ∧
    ((l.foldl (pairStep w data) sp).2.DestBuffer.length = sp.2.DestBuffer.length ∧
     (l.foldl (pairStep w data) sp).2.Bytes = sp.2.Bytes) := by
  induction l generalizing sp with
  | nil => simp
  | cons hd tl ih =>
    simp only [List.foldl_cons]
    have h1 := pairStep_lens w data sp hd
    have h2 := ih (pairStep w data sp hd)
    exact ⟨⟨h2.1.1.trans h1.1.1, h2.1.2.trans h1.1.2⟩,
      ⟨h2.2.1.trans h1.2.1, h2.2.2.trans h1.2.2⟩⟩

theorem foldl_sumadd_lens (f : Nat → List Nat) (p : Nat → Bool) (l : List Nat) (s : XORSummer) :
    ((l.foldl (fun s2 si => if p si then s2.add (f si) else s2) s).DestBuffer.length =
      s.DestBuffer.length ∧
     (l.foldl (fun s2 si => if p si then s2.add (f si) else s2) s).Bytes = s.Bytes) := by
  induction l generalizing s with
  | nil => simp
  | cons hd tl ih =>
    simp only [List.foldl_cons]
    by_cases h : p hd
    · simp only [h, if_pos]
      have h1 := ih (s.add (f hd))
      exact ⟨h1.1.trans (XORSummer.add_dest_length s (f hd)),
        h1.2.trans (XORSummer.add_bytes s (f hd))⟩
    · simp only [h]
      simpa using ih s

theorem laneStep_lens (laneSums : Nat → Nat → List Nat) (row : Nat)
    (sp : XORSummer × XORSummer) (lane : Nat) :
    ((laneStep laneSums row sp lane).1.DestBuffer.length = sp.1.DestBuffer.length ∧
     (laneStep laneSums row sp lane).1.Bytes = sp.1.Bytes) ∧
    ((laneStep laneSums row sp lane).2.DestBuffer.length = sp.2.DestBuffer.length ∧
     (laneStep laneSums row sp lane).2.Bytes = sp.2.Bytes) := by
  unfold laneStep
  exact ⟨foldl_sumadd_lens _ _ _ _, foldl_sumadd_lens _ _ _ _⟩

theorem addLaneSums_lens (laneSums : Nat → Nat → List Nat) (row : Nat)
    (sp : XORSummer × XORSummer) :
    ((addLaneSums laneSums row sp).1.DestBuffer.length = sp.1.DestBuffer.length ∧
     (addLaneSums laneSums row sp).1.Bytes = sp.1.Bytes) ∧
    ((addLaneSums laneSums row sp).2.DestBuffer.length = sp.2.DestBuffer.length ∧
     (addLaneSums laneSums row sp).2.Bytes = sp.2.Bytes) := by
  unfold addLaneSums
  generalize List.range kColumnLaneCount = l
  induction l generalizing sp with
  | nil => simp
  | cons hd tl ih =>
    simp only [List.foldl_cons]
    have h1 := laneStep_lens laneSums row sp hd
    have h2 := ih (laneStep laneSums row sp hd)
    exact ⟨⟨h2.1.1.trans h1.1.1, h2.1.2.trans h1.1.2⟩,
      ⟨h2.2.1.trans h1.2.1, h2.2.2.trans h1.2.2⟩⟩

theorem loadSymbol_length (w : AppDataWindow) (data : List (List Nat)) (c : Nat)
    (hgood : GoodData w data) (hFB : w.FinalBytes ≤ w.SymbolBytes) (hc : c < w.InputCount) :
    (loadSymbol w data c).length = w.SymbolBytes := by
  unfold loadSymbol
  have hlen := hgood.2.1 c hc
  by_cases hf : w.IsFinalColumn c
  · rw [if_pos hf]
    unfold AppDataWindow.GetColumnBytes at hlen
    rw [if_pos hf] at hlen
    rw [List.length_append, List.length_take, List.length_replicate, hlen, Nat.min_self]
    omega
  · rw [if_neg hf]
    unfold AppDataWindow.GetColumnBytes at hlen
    rw [if_neg hf] at hlen
    rw [List.length_take, hlen, Nat.min_self]

theorem encodeBody_length (w : AppDataWindow) (data : List (List Nat))
    (laneSums : Nat → Nat → List Nat) (row : Nat) (hgood : GoodData w data)
    (hFB : w.FinalBytes ≤ w.SymbolBytes) (hK : 1 ≤ w.InputCount) :
    (encodeBody w data laneSums row).length = w.SymbolBytes := by
  have hdlen := pairDraws_length row w.InputCount
  have hpos := pairCountOf_pos w.InputCount hK
  unfold encodeBody
  rw [gf256_muladd_mem_length, XORSummer.finalize_length]
  cases hpd : pairDraws row w.InputCount with
  | nil => rw [hpd] at hdlen; simp at hdlen; omega
  | cons hd tl =>
    have hb := pairDraws_bounded row w.InputCount hK hd (by rw [hpd]; exact List.mem_cons_self _ _)
    unfold encodePairPhase
    rw [hpd]
    cases hd with
    | mk e1 eRX =>
      have h1 := addLaneSums_lens laneSums row
        (tl.foldl (pairStep w data)
          (XORSummer.Initialize (loadSymbol w data e1) w.SymbolBytes,
           XORSummer.Initialize (loadSymbol w data eRX) w.SymbolBytes))
      have h2 := foldl_pairStep_lens w data tl
        (XORSummer.Initialize (loadSymbol w data e1) w.SymbolBytes,
         XORSummer.Initialize (loadSymbol w data eRX) w.SymbolBytes)
      rw [h1.1.1, h2.1.1]
      exact loadSymbol_length w data e1 hgood hFB hb.1

/-- Shared facts about an accepted `SetParameters` call (assuming the
computed symbol size is not 32-bit truncated). -/
theorem setParameters_props (K T : Nat) (w : AppDataWindow)
    (hw : SetParameters K T = some w) (hfit : (T + K - 1) / K < 4294967296) :
    w.InputCount = K ∧ w.TotalBytes = T ∧ 1 ≤ K ∧ K ≤ T ∧
    w.SymbolBytes = (T + K - 1) / K ∧ 1 ≤ w.SymbolBytes ∧
    1 ≤ w.FinalBytes ∧ w.FinalBytes ≤ w.SymbolBytes := by
  unfold SetParameters at hw
  by_cases hg : K = 0 ∨ T < K
  · rw [if_pos hg] at hw; exact absurd hw (by simp)
  · rw [if_neg hg] at hw
    push_neg at hg
    obtain ⟨hK0, hTK⟩ := hg
    have hK : 1 ≤ K := Nat.pos_of_ne_zero hK0
    simp only [Option.some.injEq] at hw
    subst hw
    set B := (T + K - 1) / K with hBdef
    have hBu : u32 B = B := Nat.mod_eq_of_lt hfit
    have hB1 : 1 ≤ B := by
      rw [hBdef, Nat.one_le_div_iff hK]
      omega
    have hmodu : u32 (T % u32 B) = T % B := by
      rw [hBu]
      exact Nat.mod_eq_of_lt (lt_trans (Nat.mod_lt _ hB1) hfit)
    refine ⟨rfl, rfl, hK, hTK, hBu, ?_, ?_, ?_⟩
    · show 1 ≤ u32 B
      rw [hBu]
      exact hB1
    · rw [hmodu, hBu]
      by_cases hm : T % B = 0
      · rw [if_pos hm]; exact hB1
      · rw [if_neg hm]
        exact Nat.pos_of_ne_zero hm
    · rw [hmodu, hBu]
      by_cases hm : T % B = 0
      · rw [if_pos hm]
      · rw [if_neg hm]
        exact Nat.le_of_lt (Nat.mod_lt _ hB1)

/-! ### Claim C7: `Encode` error handling -/

/-- Encoder states reachable through the public API: a default-constructed
encoder, or the result of `Initialize` on well-formed input (with the
computed symbol size not 32-bit truncated). -/
def EncoderReachable (e : Encoder) : Prop :=
  e = Encoder.uninit ∨
  ∃ K data T w, SetParameters K T = some w ∧ GoodData w data ∧
    (T + K - 1) / K < 4294967296 ∧ e = (Encoder.Initialize K data T).2

/-- C7: `Encode` returns `InvalidInput` exactly when the encoder is not
successfully initialized or the output length differs from `SymbolBytes`;
in the error case the output buffer is unchanged, and otherwise it returns
`Success` having produced exactly `SymbolBytes` bytes of recovery data. -/
theorem C7_encode_error_handling (e : Encoder) (he : EncoderReachable e) (sym : FecalSymbol) :
    ((e.Encode sym).1 = FecalResult.InvalidInput ↔
      e.Initialized = false ∨ sym.Bytes ≠ e.Window.SymbolBytes) ∧
    ((e.Encode sym).1 = FecalResult.InvalidInput → (e.Encode sym).2 = sym.Data) ∧
    ((e.Encode sym).1 ≠ FecalResult.InvalidInput →
      (e.Encode sym).1 = FecalResult.Success ∧
      (e.Encode sym).2.length = e.Window.SymbolBytes) := by
  by_cases h1 : e.Initialized = false
  · unfold Encoder.Encode
    rw [if_pos h1]
    exact ⟨by simp [h1], fun _ => rfl, fun hne => absurd rfl hne⟩
  · by_cases h2 : sym.Bytes ≠ e.Window.SymbolBytes
    · unfold Encoder.Encode
      rw [if_neg h1, if_pos h2]
      exact ⟨by simp [h2], fun _ => rfl, fun hne => absurd rfl hne⟩
    · unfold Encoder.Encode
      rw [if_neg h1, if_neg h2]
      refine ⟨by simp [h1, h2], by simp, fun _ => ⟨rfl, ?_⟩⟩
      rcases he with heq | ⟨K, data, T, w, hsp, hgood, hfit, heq⟩
      · rw [heq] at h1
        exact absurd rfl h1
      · obtain ⟨hIC, hTB, hK1, hKT, hBS, hB1, hF1, hFB⟩ := setParameters_props K T w hsp hfit
        have hinit : (Encoder.Initialize K data T).2 =
            ⟨w, data, (List.range kColumnLaneCount).map (fun l =>
              (List.range kColumnSumCount).map (fun s => encoderLaneSum w data l s)), true⟩ := by
          unfold Encoder.Initialize
          rw [hsp]
        rw [heq, hinit]
        exact encodeBody_length w data _ sym.Index hgood hFB (by omega)

/-- C7 witness: a one-column encoder (`K = 1, T = 1`) encodes row 0 into a
one-byte output buffer successfully. -/
theorem C7_witness :
    EncoderReachable (Encoder.Initialize 1 [[5]] 1).2 ∧
    ((Encoder.Initialize 1 [[5]] 1).2.Encode ⟨[0], 1, 0⟩).1 = FecalResult.Success ∧
    ((Encoder.Initialize 1 [[5]] 1).2.Encode ⟨[0], 1, 0⟩).2.length = 1 := by
  have hreach : EncoderReachable (Encoder.Initialize 1 [[5]] 1).2 := by
    right
    refine ⟨1, [[5]], 1, ⟨1, 1, 1, 1⟩, by decide, ⟨by decide, ?_, ?_⟩, by decide, rfl⟩
    · intro c hc
      have hc0 : c < 1 := hc
      have : c = 0 := by omega
      subst this
      decide
    · intro c j
      match c with
      | 0 =>
        match j with
        | 0 => decide
        | j + 1 =>
          have : bget ([[5]].getD 0 []) (j + 1) = 0 :=
            bget_eq_zero_of_le _ _ (by simp)
          rw [this]
          norm_num
      | c + 1 =>
        have : bget ([[5]].getD (c + 1) []) j = 0 := by
          have : [[5]].getD (c + 1) [] = [] := by
            apply List.getD_eq_default
            simp
          rw [this]
          exact bget_eq_zero_of_le [] j (by simp)
        rw [this]
        norm_num
  have h := C7_encode_error_handling _ hreach ⟨[0], 1, 0⟩
  have hne : ((Encoder.Initialize 1 [[5]] 1).2.Encode ⟨[0], 1, 0⟩).1 ≠
      FecalResult.InvalidInput := by
    intro hbad
    have h2 := h.1.mp hbad
    revert h2
    decide
  have hs := h.2.2 hne
  refine ⟨hreach, hs.1, ?_⟩
  rw [hs.2]
  decide

/-! ### Decoder data structures (FecalDecoder.h) -/

/-- `OriginalInfo` from FecalDecoder.h: received (or recovered) column data
plus the back-pointer into the recovery matrix. -/
structure OriginalInfo where
  Data : Option (List Nat)
  RecoveryMatrixColumn : Nat
deriving DecidableEq

/-- `RecoveryInfo` from FecalDecoder.h. -/
structure RecoveryInfo where
  Data : List Nat
  Row : Nat
  UsedForSolution : Bool
deriving DecidableEq

/-- `ColumnInfo` from FecalDecoder.h (`RecoveryMatrixState`). -/
structure ColumnInfo where
  Column : Nat
  CX : Nat
deriving DecidableEq

/-- `kSubwindowSize = kColumnLaneCount * 8 = 64`. -/
def kSubwindowSize : Nat := kColumnLaneCount * 8

/-- A `Subwindow` (FecalDecoder.h): a 64-bit `CustomBitSet<64>` (one word)
and the received-count. -/
structure Subwindow where
  Got : Nat
  GotCount : Nat
deriving DecidableEq

/-- Truncation to 64 bits of the bitset word. -/
def not64 (x : Nat) : Nat := x ^^^ 18446744073709551615

/-- `CustomBitSet<64>::Set`. -/
def bitsetSet (wd bit : Nat) : Nat := wd ||| (1 <<< (bit % 64))

/-- `CustomBitSet<64>::Check`. -/
def bitsetCheck (wd bit : Nat) : Bool := wd &&& (1 <<< (bit % 64)) ≠ 0

/-- `FirstNonzeroBit64` (count of trailing zero bits; 0 for input 0 after
64 fuel steps, matching the precondition `x != 0`). -/
def ctzAux : Nat → Nat → Nat
  | 0, _ => 0
  | fuel + 1, x => if x % 2 = 1 then 0 else ctzAux fuel (x / 2) + 1

/-- `FirstNonzeroBit64(x)`: index of the lowest set bit (precondition `x ≠ 0`). -/
def FirstNonzeroBit64 (x : Nat) : Nat := ctzAux 64 x

/-- `CustomBitSet<64>::FindFirstClear(bitStart)` specialised to one word
(`kWords = 1`): index of the first clear bit at or after `bitStart`
(64 if none). -/
def bitsetFindFirstClear (wd bitStart : Nat) : Nat :=
  let word := not64 wd >>> bitStart
  if word ≠ 0 then
    bitStart + (if word &&& 1 = 0 then FirstNonzeroBit64 word else 0)
  else 64

/-- The full decoder state: `DecoderAppDataWindow`, `RecoveryMatrixState`
and the `Decoder` fields of FecalDecoder.h. -/
structure DecoderState where
  Window : AppDataWindow
  OriginalData : List OriginalInfo
  RecoveryData : List RecoveryInfo
  SubwindowCount : Nat
  Subwindows : List Subwindow
  OriginalGotCount : Nat
  RowSet : List Nat
  RecoveryAttempted : Bool
  Columns : List ColumnInfo
  Matrix : List (List Nat)
  Pivots : List Nat
  GEResumePivot : Nat
  FilledRows : Nat
  LaneSums : List (List (Option (List Nat)))
  RecoveredData : List FecalSymbol
deriving DecidableEq

/-- `Decoder::Initialize` + `DecoderAppDataWindow::AllocateOriginals`:
the state of a freshly created decoder. -/
def Decoder.Initialize (input_count total_bytes : Nat) : FecalResult × Option DecoderState :=
  match SetParameters input_count total_bytes with
  | none => (FecalResult.InvalidInput, none)
  | some w =>
    (FecalResult.Success, some
      { Window := w
        OriginalData := List.replicate w.InputCount ⟨none, 0⟩
        RecoveryData := []
        SubwindowCount := (w.InputCount + kSubwindowSize - 1) / kSubwindowSize
        Subwindows := List.replicate ((w.InputCount + kSubwindowSize - 1) / kSubwindowSize) ⟨0, 0⟩
        OriginalGotCount := 0
        RowSet := []
        RecoveryAttempted := false
        Columns := []
        Matrix := []
        Pivots := []
        GEResumePivot := 0
        FilledRows := 0
        LaneSums := List.replicate kColumnLaneCount (List.replicate kColumnSumCount none)
        RecoveredData := [] })

/-- `DecoderAppDataWindow::MarkGotElement`. -/
def DecoderState.MarkGotElement (s : DecoderState) (element : Nat) : DecoderState :=
  let idx := element / kSubwindowSize
  let sw := s.Subwindows.getD idx ⟨0, 0⟩
  { s with Subwindows := s.Subwindows.set idx ⟨bitsetSet sw.Got (element % kSubwindowSize), sw.GotCount + 1⟩ }

/-- `DecoderAppDataWindow::AddOriginal`: returns whether the column was new,
together with the updated state. -/
def windowAddOriginal (s : DecoderState) (column : Nat) (data : List Nat) :
    Bool × DecoderState :=
  if ((s.OriginalData.getD column ⟨none, 0⟩).Data).isSome then (false, s)
  else
    let oi := s.OriginalData.getD column ⟨none, 0⟩
    let s1 := { s with OriginalData := s.OriginalData.set column ⟨some data, oi.RecoveryMatrixColumn⟩ }
    let s2 := s1.MarkGotElement column
    (true, { s2 with OriginalGotCount := s2.OriginalGotCount + 1 })

/-- `DecoderAppDataWindow::AddRecovery`: duplicate rows are dropped. -/
def windowAddRecovery (s : DecoderState) (data : List Nat) (row : Nat) :
    Bool × DecoderState :=
  if row ∈ s.RowSet then (false, s)
  else
    (true, { s with RowSet := s.RowSet ++ [row],
                    RecoveryData := s.RecoveryData ++ [⟨data, row, false⟩] })

/-- The subwindow scan of `FindNextLostElement`; `fuel` is
`SubwindowCount - subwindowIndex`. -/
def findNextAux (s : DecoderState) : Nat → Nat → Nat → Nat
  | 0, _, _ => s.Window.InputCount
  | fuel + 1, subwindowIndex, bitIndex =>
    let sw := s.Subwindows.getD subwindowIndex ⟨0, 0⟩
    if sw.GotCount < kSubwindowSize then
      let b := bitsetFindFirstClear sw.Got bitIndex
      if b ≥ kSubwindowSize then findNextAux s fuel (subwindowIndex + 1) 0
      else
        let nextElement := subwindowIndex * kSubwindowSize + b
        if nextElement > s.Window.InputCount then s.Window.InputCount else nextElement
    else findNextAux s fuel (subwindowIndex + 1) 0

/-- `DecoderAppDataWindow::FindNextLostElement`. -/
def DecoderState.FindNextLostElement (s : DecoderState) (elementStart : Nat) : Nat :=
  if elementStart ≥ s.Window.InputCount then s.Window.InputCount
  else findNextAux s (s.SubwindowCount - elementStart / kSubwindowSize)
    (elementStart / kSubwindowSize) (elementStart % kSubwindowSize)

/-- `Decoder::AddOriginal`. -/
def Decoder.AddOriginal (s : DecoderState) (sym : FecalSymbol) : FecalResult × DecoderState :=
  if sym.Index ≥ s.Window.InputCount ∨ sym.Bytes ≠ s.Window.GetColumnBytes sym.Index then
    (FecalResult.InvalidInput, s)
  else
    let r := windowAddOriginal s sym.Index sym.Data
    (FecalResult.Success, if r.1 then { r.2 with RecoveryAttempted := false } else r.2)

/-- `Decoder::AddRecovery`. -/
def Decoder.AddRecovery (s : DecoderState) (sym : FecalSymbol) : FecalResult × DecoderState :=
  if sym.Bytes ≠ s.Window.SymbolBytes then (FecalResult.InvalidInput, s)
  else
    let r := windowAddRecovery s sym.Data sym.Index
    (FecalResult.Success, if r.1 then { r.2 with RecoveryAttempted := false } else r.2)

/-! ### Recovery matrix construction (FecalDecoder.cpp) -/

/-- `RecoveryMatrixState::PopulateColumns` walk: collects the next `count`
lost columns (ascending) and writes the matrix-column back-pointers.  The
defensive `lostColumn >= InputCount` break (debug-trap territory: fewer lost
columns remain than requested) stops early. -/
def populateColumnsAux : DecoderState → Nat → Nat → Nat → List ColumnInfo × DecoderState
  | s, 0, _, _ => ([], s)
  | s, count + 1, matrixColumn, nextSearch =>
    let lostColumn := s.FindNextLostElement nextSearch
    if lostColumn ≥ s.Window.InputCount then ([], s)
    else
      let oi := s.OriginalData.getD lostColumn ⟨none, 0⟩
      let s2 := { s with OriginalData := s.OriginalData.set lostColumn ⟨oi.Data, matrixColumn⟩ }
      let rest := populateColumnsAux s2 count (matrixColumn + 1) (lostColumn + 1)
      (⟨lostColumn, GetColumnValue lostColumn⟩ :: rest.1, rest.2)

/-- `RecoveryMatrixState::PopulateColumns`. -/
def PopulateColumns (s : DecoderState) (columns : Nat) : DecoderState :=
  let r := populateColumnsAux s columns 0 0
  { r.2 with Columns := r.1 }

/-- One freshly generated matrix row (`GenerateMatrix` row fill): the
opcode-dense value for every matrix column, XORed with the sparse pair-draw
contributions routed through the `RecoveryMatrixColumn` back-pointers. -/
def generateMatrixRow (s : DecoderState) (row : Nat) : List Nat :=
  let RX := GetRowValue row
  let dense := s.Columns.map (fun ci =>
    let CX := ci.CX
    let CX2 := gf256_sqr CX
    let lane := ci.Column % kColumnLaneCount
    let opcode := GetRowOpcode lane row
    let v0 := opcode &&& 1
    let v1 := if opcode &&& 2 ≠ 0 then v0 ^^^ CX else v0
    let v2 := if opcode &&& 4 ≠ 0 then v1 ^^^ CX2 else v1
    let v3 := if opcode &&& 8 ≠ 0 then v2 ^^^ RX else v2
    let v4 := if opcode &&& 16 ≠ 0 then v3 ^^^ gf256_mul CX RX else v3
    if opcode &&& 32 ≠ 0 then v4 ^^^ gf256_mul CX2 RX else v4)
  (pairDraws row s.Window.InputCount).foldl
    (fun rowData pr =>
      let rowData1 :=
        if (s.OriginalData.getD pr.1 ⟨none, 0⟩).Data.isNone then
          let mc := (s.OriginalData.getD pr.1 ⟨none, 0⟩).RecoveryMatrixColumn
          rowData.set mc (rowData.getD mc 0 ^^^ 1)
        else rowData
      if (s.OriginalData.getD pr.2 ⟨none, 0⟩).Data.isNone then
        let mc := (s.OriginalData.getD pr.2 ⟨none, 0⟩).RecoveryMatrixColumn
        rowData1.set mc (rowData1.getD mc 0 ^^^ RX)
      else rowData1)
    dense

/-- `MulAddRows`: `rem_row[k] ⊕= y · ge_row[k]` for `columnStart ≤ k < columnEnd`. -/
def mulAddRows (ge_row rem_row : List Nat) (columnStart columnEnd : Nat) (y : Nat) : List Nat :=
  mapWithIdx (fun k v => if columnStart ≤ k ∧ k < columnEnd then v ^^^ gf256_mul y (bget ge_row k) else v)
    0 rem_row

/-- `RecoveryMatrixState::EliminateRow`: skip if the pivot-column entry is
already 0; otherwise overwrite it with the elimination constant
`y = rem_row[p] / val_i` and XOR `y · ge_row` into the columns after `p`. -/
def EliminateRowL (ge_row rem_row : List Nat) (pivot_i columnEnd val_i : Nat) : List Nat :=
  let val_j := bget rem_row pivot_i
  if val_j = 0 then rem_row
  else
    let y := gf256_div val_j val_i
    mulAddRows ge_row (rem_row.set pivot_i y) (pivot_i + 1) columnEnd y

/-- `RecoveryMatrixState::ResumeGE`: apply every already-determined pivot to
the newly appended physical rows `oldRows..rows-1`. -/
def ResumeGE (s : DecoderState) (oldRows rows : Nat) : DecoderState :=
  if oldRows ≥ rows then s
  else
    (List.range s.GEResumePivot).foldl
      (fun s2 pivot_i =>
        let mri := s2.Pivots.getD pivot_i 0
        let ge_row := s2.Matrix.getD mri []
        let val_i := bget ge_row pivot_i
        let m2 := (List.range' oldRows (rows - oldRows)).foldl
          (fun m newRowIndex =>
            m.set newRowIndex
              (EliminateRowL ge_row (m.getD newRowIndex []) pivot_i s2.Columns.length val_i))
          s2.Matrix
        { s2 with Matrix := m2 })
      s

/-- The row-append tail of `GenerateMatrix`: append `newRows` fresh physical
rows and their pivot slots, re-apply a partial GE to them (`ResumeGE`), and
record the new filled-row count. -/
def appendRowsState (s1 : DecoderState) (newRows : List (List Nat)) (oldRows rows : Nat) :
    DecoderState :=
  let s2 : DecoderState := { s1 with
    Matrix := s1.Matrix ++ newRows,
    Pivots := s1.Pivots ++ List.range' oldRows (rows - oldRows) }
  let s3 : DecoderState := if s1.GEResumePivot > 0 then ResumeGE s2 oldRows rows else s2
  { s3 with FilledRows := rows }

/-- `RecoveryMatrixState::GenerateMatrix` (allocation always succeeds in the
model).  On a change in the number of lost columns everything is rebuilt;
otherwise the new recovery rows are appended and, when a partial GE exists,
`ResumeGE` re-applies the determined pivots to them. -/
def GenerateMatrix (s : DecoderState) : DecoderState :=
  let columns := s.Window.InputCount - s.OriginalGotCount
  let rows := s.RecoveryData.length
  let s1 : DecoderState :=
    if columns ≠ s.Columns.length then
      let sp := PopulateColumns s columns
      { sp with Pivots := [], GEResumePivot := 0, FilledRows := 0, Matrix := [] }
    else s
  appendRowsState s1 ((List.range (rows - s1.FilledRows)).map
    (fun k => generateMatrixRow s1 ((s1.RecoveryData.getD (s1.FilledRows + k) ⟨[], 0, false⟩).Row)))
    s1.FilledRows rows

/-! ### Gaussian elimination (FecalDecoder.cpp) -/

/-- Mark `RecoveryData[idx].UsedForSolution = true`. -/
def markUsed (s : DecoderState) (idx : Nat) : DecoderState :=
  let ri := s.RecoveryData.getD idx ⟨[], 0, false⟩
  { s with RecoveryData := s.RecoveryData.set idx ⟨ri.Data, ri.Row, true⟩ }

/-- The pivot search of `PivotedGaussianElimination`: first position
`pivot_j ≥ startJ` whose row has a non-zero entry in column `pivot_i`. -/
def pivotSearchAux (s : DecoderState) (pivot_i : Nat) : Nat → Nat → Option Nat
  | 0, _ => none
  | fuel + 1, pivot_j =>
    let mri := s.Pivots.getD pivot_j 0
    if bget (s.Matrix.getD mri []) pivot_i ≠ 0 then some pivot_j
    else pivotSearchAux s pivot_i fuel (pivot_j + 1)

/-- `RecoveryMatrixState::PivotedGaussianElimination`, as a recursion over
the remaining pivots (`fuel = columns - pivot_i`); `startJ` is where the
pivot search begins (`pivot_i + 1` on entry from the non-pivoted pass,
`pivot_i` afterwards). -/
def pivotedGEAux : DecoderState → Nat → Nat → Nat → Bool × DecoderState
  | s, 0, _, _ => (true, s)
  | s, fuel + 1, pivot_i, startJ =>
    let columns := s.Columns.length
    let rows := s.RecoveryData.length
    match pivotSearchAux s pivot_i (rows - startJ) startJ with
    | none => (false, { s with GEResumePivot := pivot_i })
    | some pivot_j =>
      let s1 :=
        if pivot_i ≠ pivot_j then
          let pv := (s.Pivots.set pivot_i (s.Pivots.getD pivot_j 0)).set pivot_j
            (s.Pivots.getD pivot_i 0)
          { s with Pivots := pv }
        else s
      let mri := s1.Pivots.getD pivot_i 0
      let s2 := markUsed s1 mri
      if pivot_i ≥ columns - 1 then (true, s2)
      else
        let ge_row := s2.Matrix.getD mri []
        let val_i := bget ge_row pivot_i
        let m2 := (List.range' (pivot_i + 1) (rows - (pivot_i + 1))).foldl
          (fun m k =>
            let mrk := s2.Pivots.getD k 0
            m.set mrk (EliminateRowL ge_row (m.getD mrk []) pivot_i columns val_i))
          s2.Matrix
        pivotedGEAux { s2 with Matrix := m2 } fuel (pivot_i + 1) (pivot_i + 1)

/-- The non-pivoted fast path of `GaussianElimination`
(`fuel = columns - pivot_i`), switching to the pivoted algorithm on the
first zero diagonal entry. -/
def gaussElimAux : DecoderState → Nat → Nat → Bool × DecoderState
  | s, 0, _ => (true, s)
  | s, fuel + 1, pivot_i =>
    let columns := s.Columns.length
    let rows := s.RecoveryData.length
    let ge_row := s.Matrix.getD pivot_i []
    let val_i := bget ge_row pivot_i
    if val_i = 0 then pivotedGEAux s (fuel + 1) pivot_i (pivot_i + 1)
    else
      let s1 := markUsed s pivot_i
      let m2 := (List.range' (pivot_i + 1) (rows - (pivot_i + 1))).foldl
        (fun m j => m.set j (EliminateRowL ge_row (m.getD j []) pivot_i columns val_i))
        s1.Matrix
      gaussElimAux { s1 with Matrix := m2 } fuel (pivot_i + 1)

/-- `RecoveryMatrixState::GaussianElimination`. -/
def GaussianElimination (s : DecoderState) : Bool × DecoderState :=
  if s.GEResumePivot > 0 then
    pivotedGEAux s (s.Columns.length - s.GEResumePivot) s.GEResumePivot (s.GEResumePivot + 1)
  else gaussElimAux s s.Columns.length 0

/-! ### Decoder data recovery (FecalDecoder.cpp) -/

/-- `Decoder::GetLaneSum` lazy computation: the lane sum over the originals
the decoder currently has (final column clipped to `FinalBytes`). -/
def decoderLaneSum (s : DecoderState) (laneIndex sumIndex : Nat) : List Nat :=
  let B := s.Window.SymbolBytes
  let inputEnd := s.Window.InputCount - 1
  if sumIndex = 0 then
    let summer0 := XORSummer.Initialize (List.replicate B 0) B
    let summer1 := (laneCols laneIndex inputEnd).foldl
      (fun acc c =>
        match (s.OriginalData.getD c ⟨none, 0⟩).Data with
        | some d => acc.add d
        | none => acc)
      summer0
    let summer2 :=
      if inputEnd % kColumnLaneCount = laneIndex then
        match (s.OriginalData.getD inputEnd ⟨none, 0⟩).Data with
        | some d => summer1.addDirect d s.Window.FinalBytes
        | none => summer1
      else summer1
    summer2.finalize
  else
    let base := (laneCols laneIndex inputEnd).foldl
      (fun acc c =>
        match (s.OriginalData.getD c ⟨none, 0⟩).Data with
        | some d =>
          let CX := GetColumnValue c
          let v := if sumIndex = 2 then gf256_sqr CX else CX
          gf256_muladd_mem acc v d B
        | none => acc)
      (List.replicate B 0)
    if inputEnd % kColumnLaneCount = laneIndex then
      match (s.OriginalData.getD inputEnd ⟨none, 0⟩).Data with
      | some d =>
        let CX := GetColumnValue inputEnd
        let v := if sumIndex = 2 then gf256_sqr CX else CX
        gf256_muladd_mem base v d s.Window.FinalBytes
      | none => base
    else base

/-- `Decoder::GetLaneSum` with its lazy cache. -/
def GetLaneSum (s : DecoderState) (laneIndex sumIndex : Nat) : List Nat × DecoderState :=
  match (s.LaneSums.getD laneIndex []).getD sumIndex none with
  | some buf => (buf, s)
  | none =>
    let buf := decoderLaneSum s laneIndex sumIndex
    let ls := s.LaneSums.set laneIndex ((s.LaneSums.getD laneIndex []).set sumIndex (some buf))
    (buf, { s with LaneSums := ls })

/-- One conditional lane-sum add (one opcode bit) into a summer, threading
the lane-sum cache. -/
def laneSumAdd (acc : XORSummer × DecoderState) (lane sumIndex : Nat) (b : Bool) :
    XORSummer × DecoderState :=
  if b then
    let g := GetLaneSum acc.2 lane sumIndex
    (acc.1.add g.1, g.2)
  else acc

/-- The three conditional lane-sum adds of one lane into one summer
(opcode bits `bitBase..bitBase+2`), threading the lane-sum cache. -/
def addLaneSumsDec (s : DecoderState) (lane opcode bitBase : Nat) (sm : XORSummer) :
    XORSummer × DecoderState :=
  laneSumAdd (laneSumAdd (laneSumAdd (sm, s) lane 0 (opcode.testBit bitBase))
    lane 1 (opcode.testBit (bitBase + 1))) lane 2 (opcode.testBit (bitBase + 2))

/-- The dense lane-sum phase of `EliminateOriginalData` for one recovery
row: bits 0..2 feed the recovery buffer, bits 3..5 the product workspace. -/
def elimLanePhase (s : DecoderState) (row : Nat) (sms : XORSummer × XORSummer) :
    (XORSummer × XORSummer) × DecoderState :=
  (List.range kColumnLaneCount).foldl
    (fun acc lane =>
      let opcode := GetRowOpcode lane row
      let r1 := addLaneSumsDec acc.2 lane opcode 0 acc.1.1
      let r2 := addLaneSumsDec r1.2 lane opcode kColumnSumCount acc.1.2
      ((r1.1, r2.1), r2.2))
    (sms, s)

/-- The sparse pair-draw phase of `EliminateOriginalData` for one recovery
row: received originals are XORed into the two accumulators; lost ones are
skipped. -/
def elimPairPhase (s : DecoderState) (row : Nat) (sms : XORSummer × XORSummer) :
    XORSummer × XORSummer :=
  (pairDraws row s.Window.InputCount).foldl
    (fun sp pr =>
      let sp1 := match (s.OriginalData.getD pr.1 ⟨none, 0⟩).Data with
        | none => sp.1
        | some orig =>
          if pr.1 = s.Window.InputCount - 1 then sp.1.addDirect orig s.Window.FinalBytes
          else sp.1.add orig
      let sp2 := match (s.OriginalData.getD pr.2 ⟨none, 0⟩).Data with
        | none => sp.2
        | some orig =>
          if pr.2 = s.Window.InputCount - 1 then sp.2.addDirect orig s.Window.FinalBytes
          else sp.2.add orig
      (sp1, sp2))
    sms

/-- `Decoder::EliminateOriginalData` body for one recovery record (skipped
unless `UsedForSolution`). -/
def eliminateRowData (s : DecoderState) (i : Nat) : DecoderState :=
  let recovery := s.RecoveryData.getD i ⟨[], 0, false⟩
  if recovery.UsedForSolution = false then s
  else
    let B := s.Window.SymbolBytes
    let sm1 := XORSummer.Initialize recovery.Data B
    let smRX := XORSummer.Initialize (List.replicate B 0) B
    let lp := elimLanePhase s recovery.Row (sm1, smRX)
    let pp := elimPairPhase lp.2 recovery.Row lp.1
    let out := gf256_muladd_mem pp.1.finalize (GetRowValue recovery.Row) pp.2.finalize B
    { lp.2 with RecoveryData := lp.2.RecoveryData.set i ⟨out, recovery.Row, true⟩ }

/-- `Decoder::EliminateOriginalData` (allocation always succeeds in the
model). -/
def EliminateOriginalData (s : DecoderState) : DecoderState :=
  (List.range s.RecoveryData.length).foldl eliminateRowData s

/-- `Decoder::MultiplyLowerTriangle`. -/
def MultiplyLowerTriangle (s : DecoderState) : DecoderState :=
  let columns := s.Columns.length
  let B := s.Window.SymbolBytes
  (List.range (columns - 1)).foldl
    (fun s2 col_i =>
      let mri := s2.Pivots.getD col_i 0
      let srcData := (s2.RecoveryData.getD mri ⟨[], 0, false⟩).Data
      (List.range' (col_i + 1) (columns - (col_i + 1))).foldl
        (fun s3 col_j =>
          let mrj := s3.Pivots.getD col_j 0
          let y := bget (s3.Matrix.getD mrj []) col_i
          if y = 0 then s3
          else
            let rj := s3.RecoveryData.getD mrj ⟨[], 0, false⟩
            let rd := s3.RecoveryData.set mrj
              ⟨gf256_muladd_mem rj.Data y srcData B, rj.Row, rj.UsedForSolution⟩
            { s3 with RecoveryData := rd })
        s2)
    s

/-- One column step of `Decoder::BackSubstitution` (column `col_i`):
divide the pivot row by the diagonal, expose the recovered original, and
eliminate the column from the pivot rows above. -/
def backSubStep (s2 : DecoderState) (col_i : Nat) : DecoderState :=
  let mri := s2.Pivots.getD col_i 0
  let ri := s2.RecoveryData.getD mri ⟨[], 0, false⟩
  let y := bget (s2.Matrix.getD mri []) col_i
  let originalColumn := (s2.Columns.getD col_i ⟨0, 0⟩).Column
  let originalBytes := s2.Window.GetColumnBytes originalColumn
  let recovered := gf256_div_mem ri.Data y originalBytes
  let oi := s2.OriginalData.getD originalColumn ⟨none, 0⟩
  let s3 : DecoderState := { s2 with
    RecoveryData := s2.RecoveryData.set mri ⟨recovered, ri.Row, ri.UsedForSolution⟩,
    OriginalData := s2.OriginalData.set originalColumn ⟨some recovered, oi.RecoveryMatrixColumn⟩,
    RecoveredData := s2.RecoveredData.set col_i ⟨recovered, originalBytes, originalColumn⟩ }
  (List.range col_i).foldl
    (fun s4 col_j =>
      let pj := s4.Pivots.getD col_j 0
      let x := bget (s4.Matrix.getD pj []) col_i
      if x = 0 then s4
      else
        let rj := s4.RecoveryData.getD pj ⟨[], 0, false⟩
        let rd := s4.RecoveryData.set pj
          ⟨gf256_muladd_mem rj.Data x recovered originalBytes, rj.Row, rj.UsedForSolution⟩
        { s4 with RecoveryData := rd })
    s3

/-- `Decoder::BackSubstitution`: `RecoveredData.resize(columns)` followed by
the right-to-left column sweep. -/
def BackSubstitution (s : DecoderState) : DecoderState :=
  let columns := s.Columns.length
  let s0 : DecoderState := { s with
    RecoveredData := (List.range columns).map (fun i => s.RecoveredData.getD i ⟨[], 0, 0⟩) }
  ((List.range columns).reverse).foldl backSubStep s0

/-- The recovery pipeline of `Decoder::Decode` (matrix build, GE, data-side
elimination, lower-triangle replay, back-substitution), run once the guard
branches have passed. -/
def decodePipeline (s1 : DecoderState) : FecalResult × List FecalSymbol × DecoderState :=
  let s2 := GenerateMatrix s1
  let ge := GaussianElimination s2
  if ge.1 = false then (FecalResult.NeedMoreData, [], ge.2)
  else
    let s4 := EliminateOriginalData ge.2
    let s5 := MultiplyLowerTriangle s4
    let s6 := BackSubstitution s5
    (FecalResult.Success, s6.RecoveredData, s6)

/-- `Decoder::Decode`: result code, the recovered-symbols array handed to
the application, and the state after the call. -/
def Decoder.Decode (s : DecoderState) : FecalResult × List FecalSymbol × DecoderState :=
  if s.OriginalGotCount ≥ s.Window.InputCount then (FecalResult.Success, [], s)
  else if s.OriginalGotCount + s.RecoveryData.length < s.Window.InputCount then
    (FecalResult.NeedMoreData, [], s)
  else if s.RecoveryAttempted then (FecalResult.NeedMoreData, [], s)
  else decodePipeline { s with RecoveryAttempted := true }

/-! ### Claim C8: `EliminateRow` semantics -/

theorem bget_set (l : List Nat) (i v j : Nat) :
    bget (l.set i v) j = if i = j ∧ i < l.length then v else bget l j := by
  induction l generalizing i j with
  | nil => simp [bget]
  | cons d rest ih =>
    cases i with
    | zero =>
      cases j with
      | zero => simp [bget, List.set]
      | succ j2 => simp [bget, List.set]
    | succ i2 =>
      cases j with
      | zero => simp [bget, List.set]
      | succ j2 =>
        simp only [List.set, bget, List.getD_cons_succ, List.length_cons]
        rw [← bget, ← bget, ih i2 j2]
        by_cases h1 : i2 = j2 <;> simp [h1] <;> omega

theorem mulAddRows_length (ge_row rem_row : List Nat) (a b y : Nat) :
    (mulAddRows ge_row rem_row a b y).length = rem_row.length := mapWithIdx_length _ _ _

theorem bget_mulAddRows (ge_row rem_row : List Nat) (a b y j : Nat) (hj : j < rem_row.length) :
    bget (mulAddRows ge_row rem_row a b y) j =
      if a ≤ j ∧ j < b then bget rem_row j ^^^ gf256_mul y (bget ge_row j)
      else bget rem_row j := by
  unfold mulAddRows
  rw [bget_mapWithIdx _ 0 j rem_row hj]
  simp

theorem eliminateRowL_length (ge_row rem_row : List Nat) (p columnEnd val_i : Nat) :
    (EliminateRowL ge_row rem_row p columnEnd val_i).length = rem_row.length := by
  unfold EliminateRowL
  by_cases h : bget rem_row p = 0
  · rw [if_pos h]
  · rw [if_neg h]
    rw [mulAddRows_length, List.length_set]

/-- C8: for `v_p ≠ 0` (and a remainder row of the matrix's logical width),
`EliminateRow` is the identity when the pivot-column entry is 0; otherwise
it overwrites that entry with the elimination constant
`y = rem_row[p] / v_p` and XORs `y·ge_row[k]` into exactly the cells
`p+1 ≤ k < columnEnd`, leaving every other cell unchanged (the functional
model returns only the new `rem_row`; `ge_row` is untouched by
construction). -/
theorem C8_eliminateRow_semantics (ge_row rem_row : List Nat) (p columnEnd v_p : Nat)
    (hvp : v_p ≠ 0) (hp : p < rem_row.length) (hce : columnEnd ≤ rem_row.length) :
    (EliminateRowL ge_row rem_row p columnEnd v_p).length = rem_row.length ∧
    (bget rem_row p = 0 → EliminateRowL ge_row rem_row p columnEnd v_p = rem_row) ∧
    (bget rem_row p ≠ 0 →
      bget (EliminateRowL ge_row rem_row p columnEnd v_p) p =
        gf256_div (bget rem_row p) v_p ∧
      (∀ k, k ≠ p →
        bget (EliminateRowL ge_row rem_row p columnEnd v_p) k =
          if p + 1 ≤ k ∧ k < columnEnd then
            bget rem_row k ^^^ gf256_mul (gf256_div (bget rem_row p) v_p) (bget ge_row k)
          else bget rem_row k)) := by
  refine ⟨eliminateRowL_length _ _ _ _ _, ?_, ?_⟩
  · intro h0
    unfold EliminateRowL
    rw [if_pos h0]
  · intro hne
    have hlen : (rem_row.set p (gf256_div (bget rem_row p) v_p)).length = rem_row.length :=
      List.length_set _ _ _
    constructor
    · unfold EliminateRowL
      rw [if_neg hne]
      rw [bget_mulAddRows _ _ _ _ _ p (by rw [hlen]; exact hp)]
      rw [bget_set]
      simp [hp]
    · intro k hk
      unfold EliminateRowL
      rw [if_neg hne]
      by_cases hklen : k < rem_row.length
      · rw [bget_mulAddRows _ _ _ _ _ k (by rw [hlen]; exact hklen)]
        have hpk : ¬(p = k ∧ p < rem_row.length) := fun h => hk h.1.symm
        simp only [bget_set, if_neg hpk]
      · have h1 : bget (mulAddRows ge_row (rem_row.set p (gf256_div (bget rem_row p) v_p))
            (p + 1) columnEnd (gf256_div (bget rem_row p) v_p)) k = 0 := by
          apply bget_eq_zero_of_le
          rw [mulAddRows_length, hlen]
          omega
        have h2 : bget rem_row k = 0 := bget_eq_zero_of_le _ _ (by omega)
        rw [h1, h2]
        have : ¬ (p + 1 ≤ k ∧ k < columnEnd) := by omega
        simp [this]

/-- C8 witness: with `ge_row = [1, 2]`, `rem_row = [3, 4]`, `p = 0`,
`columnEnd = 2`, `v_p = 1` the eliminated row stores `y = 3/1` at column 0
and `4 ⊕ 3·2` at column 1. -/
theorem C8_witness :
    (1 : Nat) ≠ 0 ∧
    bget (EliminateRowL [1, 2] [3, 4] 0 2 1) 0 = gf256_div (bget [3, 4] 0) 1 := by
  refine ⟨by decide, ?_⟩
  have h := C8_eliminateRow_semantics [1, 2] [3, 4] 0 2 1 (by decide) (by decide) (by decide)
  exact (h.2.2 (by decide)).1

/-! ### Subwindow bitset semantics -/

/-- Number of set bits among the 64 bits of a subwindow word. -/
def bitCount64 (w : Nat) : Nat := ((Finset.range 64).filter (fun b => w.testBit b)).card

/-- Column `c` has been marked received (`MarkGotElement` has run for it). -/
def ReceivedSet (s : DecoderState) (c : Nat) : Bool :=
  bitsetCheck (s.Subwindows.getD (c / kSubwindowSize) ⟨0, 0⟩).Got (c % kSubwindowSize)

theorem and_two_pow_ne_zero (w b : Nat) : (w &&& 2 ^ b ≠ 0) ↔ w.testBit b := by
  rw [Nat.and_two_pow]
  cases h : w.testBit b <;> simp [h]

theorem one_shiftLeft (b : Nat) : (1 : Nat) <<< b = 2 ^ b := by
  rw [Nat.shiftLeft_eq, Nat.one_mul]

theorem bitsetCheck_testBit (wd bit : Nat) : bitsetCheck wd bit = wd.testBit (bit % 64) := by
  unfold bitsetCheck
  rw [one_shiftLeft]
  cases h : wd.testBit (bit % 64)
  · simp only [decide_eq_false_iff_not]
    rw [and_two_pow_ne_zero]
    simp [h]
  · simp only [decide_eq_true_eq]
    rw [and_two_pow_ne_zero]
    exact h

theorem bitsetSet_testBit (wd bit j : Nat) :
    (bitsetSet wd bit).testBit j = (wd.testBit j || decide (j = bit % 64)) := by
  unfold bitsetSet
  rw [one_shiftLeft, Nat.testBit_lor, Nat.testBit_two_pow]
  by_cases h : bit % 64 = j
  · simp [h]
  · have h2 : ¬ (j = bit % 64) := fun he => h he.symm
    simp [h, h2]

theorem bitsetSet_lt (wd bit : Nat) (hw : wd < 2 ^ 64) (hb : bit % 64 < 64) :
    bitsetSet wd bit < 2 ^ 64 := by
  unfold bitsetSet
  rw [one_shiftLeft]
  exact Nat.or_lt_two_pow hw
    (Nat.pow_lt_pow_right (by norm_num) hb)

theorem bitCount64_le (w : Nat) : bitCount64 w ≤ 64 := by
  unfold bitCount64
  calc ((Finset.range 64).filter (fun b => w.testBit b)).card ≤ (Finset.range 64).card :=
        Finset.card_filter_le _ _
    _ = 64 := Finset.card_range 64

theorem bitCount64_set (wd bit : Nat) (hb : bit < 64) (hclear : wd.testBit bit = false) :
    bitCount64 (bitsetSet wd bit) = bitCount64 wd + 1 := by
  unfold bitCount64
  have hmod : bit % 64 = bit := Nat.mod_eq_of_lt hb
  have hset : (Finset.range 64).filter (fun b => (bitsetSet wd bit).testBit b) =
      insert bit ((Finset.range 64).filter (fun b => wd.testBit b)) := by
    ext x
    simp only [Finset.mem_filter, Finset.mem_insert, Finset.mem_range, bitsetSet_testBit, hmod,
      Bool.or_eq_true, decide_eq_true_eq]
    constructor
    · rintro ⟨hx, hw | hx2⟩
      · exact Or.inr ⟨hx, hw⟩
      · exact Or.inl hx2
    · rintro (hx | ⟨hx, hw⟩)
      · exact ⟨by omega, Or.inr hx⟩
      · exact ⟨hx, Or.inl hw⟩
  rw [hset]
  rw [Finset.card_insert_of_not_mem]
  simp only [Finset.mem_filter, Finset.mem_range]
  rintro ⟨-, hw⟩
  rw [hclear] at hw
  exact Bool.false_ne_true hw

theorem bitCount64_full (w : Nat) (h : 64 ≤ bitCount64 w) : ∀ b, b < 64 → w.testBit b := by
  unfold bitCount64 at h
  have hsub : (Finset.range 64).filter (fun b => w.testBit b) ⊆ Finset.range 64 :=
    Finset.filter_subset _ _
  have hcard : (Finset.range 64).card ≤ ((Finset.range 64).filter (fun b => w.testBit b)).card := by
    rw [Finset.card_range]
    exact h
  have heq := Finset.eq_of_subset_of_card_le hsub hcard
  intro b hb
  have : b ∈ (Finset.range 64).filter (fun b => w.testBit b) := by
    rw [heq]
    exact Finset.mem_range.mpr hb
  exact (Finset.mem_filter.mp this).2

theorem bitCount64_lt_of_clear (w b : Nat) (hb : b < 64) (hclear : w.testBit b = false) :
    bitCount64 w < 64 := by
  by_contra h
  push_neg at h
  have := bitCount64_full w h b hb
  rw [hclear] at this
  exact Bool.false_ne_true this

/-! ### Decoder window invariant -/

theorem getD_set {α : Type} (l : List α) (i : Nat) (v : α) (j : Nat) (d : α) :
    (l.set i v).getD j d = if i = j ∧ i < l.length then v else l.getD j d := by
  induction l generalizing i j with
  | nil => simp
  | cons hd rest ih =>
    cases i with
    | zero =>
      cases j with
      | zero => simp [List.set]
      | succ j2 => simp [List.set]
    | succ i2 =>
      cases j with
      | zero => simp [List.set]
      | succ j2 =>
        simp only [List.set, List.getD_cons_succ, List.length_cons]
        rw [ih i2 j2]
        by_cases h1 : i2 = j2 <;> simp [h1] <;> omega

/-- The decoder-window invariant maintained by the public decoder API. -/
structure WindowInv (s : DecoderState) : Prop where
  lenOrig : s.OriginalData.length = s.Window.InputCount
  subCount : s.SubwindowCount = (s.Window.InputCount + kSubwindowSize - 1) / kSubwindowSize
  lenSub : s.Subwindows.length = s.SubwindowCount
  gotLt : ∀ i, (s.Subwindows.getD i ⟨0, 0⟩).Got < 2 ^ 64
  bitsValid : ∀ i b, b < 64 → (s.Subwindows.getD i ⟨0, 0⟩).Got.testBit b = true →
      i * kSubwindowSize + b < s.Window.InputCount
  gotCount : ∀ i, (s.Subwindows.getD i ⟨0, 0⟩).GotCount = bitCount64 (s.Subwindows.getD i ⟨0, 0⟩).Got
  received_isSome : ∀ c, ReceivedSet s c = true →
      ((s.OriginalData.getD c ⟨none, 0⟩).Data).isSome = true
  gotTotal : s.OriginalGotCount =
      ((Finset.range s.Window.InputCount).filter (fun c => ReceivedSet s c = true)).card

theorem bitCount64_zero : bitCount64 0 = 0 := by
  unfold bitCount64
  have h : (Finset.range 64).filter (fun b => (0 : Nat).testBit b) = ∅ := by
    apply Finset.filter_false_of_mem
    intro x _
    simp [Nat.zero_testBit]
  rw [h, Finset.card_empty]

theorem receivedSet_fresh (s : DecoderState) (hz : ∀ i, (s.Subwindows.getD i ⟨0, 0⟩).Got = 0)
    (c : Nat) : ReceivedSet s c = false := by
  unfold ReceivedSet
  rw [bitsetCheck_testBit, hz]
  exact Nat.zero_testBit _

theorem windowInv_fresh (K T : Nat) (s : DecoderState)
    (h : Decoder.Initialize K T = (FecalResult.Success, some s)) : WindowInv s := by
  unfold Decoder.Initialize at h
  cases hsp : SetParameters K T with
  | none => rw [hsp] at h; exact absurd h (by simp)
  | some w =>
    rw [hsp] at h
    simp only [Prod.mk.injEq, Option.some.injEq] at h
    have hs := h.2
    subst hs
    have hz : ∀ i, ((List.replicate ((w.InputCount + kSubwindowSize - 1) / kSubwindowSize)
        (⟨0, 0⟩ : Subwindow)).getD i ⟨0, 0⟩) = ⟨0, 0⟩ := by
      intro i
      by_cases hi : i < (w.InputCount + kSubwindowSize - 1) / kSubwindowSize
      · rw [List.getD_eq_getElem _ _ (by simpa using hi)]
        simp
      · exact List.getD_eq_default _ _ (by simpa using Nat.not_lt.mp hi)
    refine ⟨by simp, rfl, by simp, ?_, ?_, ?_, ?_, ?_⟩
    · intro i
      rw [hz i]
      exact Nat.two_pow_pos _
    · intro i b hb hbit
      rw [hz i] at hbit
      rw [Nat.zero_testBit] at hbit
      exact absurd hbit (by simp)
    · intro i
      rw [hz i]
      exact bitCount64_zero.symm
    · intro c hc
      unfold ReceivedSet at hc
      rw [bitsetCheck_testBit] at hc
      have := hz (c / kSubwindowSize)
      simp only [this] at hc
      rw [Nat.zero_testBit] at hc
      exact absurd hc (by simp)
    · have hempty : (Finset.range w.InputCount).filter
          (fun c => ReceivedSet ⟨w, List.replicate w.InputCount ⟨none, 0⟩, [],
            (w.InputCount + kSubwindowSize - 1) / kSubwindowSize,
            List.replicate ((w.InputCount + kSubwindowSize - 1) / kSubwindowSize) ⟨0, 0⟩,
            0, [], false, [], [], [], 0, 0,
            List.replicate kColumnLaneCount (List.replicate kColumnSumCount none), []⟩ c = true) =
          ∅ := by
        apply Finset.filter_false_of_mem
        intro x _
        intro hcon
        unfold ReceivedSet at hcon
        rw [bitsetCheck_testBit] at hcon
        simp only [hz] at hcon
        rw [Nat.zero_testBit] at hcon
        exact absurd hcon (by simp)
      rw [hempty, Finset.card_empty]

theorem kSubwindowSize_eq : kSubwindowSize = 64 := rfl

theorem receivedSet_congr (s t : DecoderState) (h : t.Subwindows = s.Subwindows) (c : Nat) :
    ReceivedSet t c = ReceivedSet s c := by
  unfold ReceivedSet
  rw [h]

theorem windowInv_congr (s t : DecoderState)
    (hW : t.Window = s.Window) (hO : t.OriginalData = s.OriginalData)
    (hS : t.Subwindows = s.Subwindows) (hSC : t.SubwindowCount = s.SubwindowCount)
    (hG : t.OriginalGotCount = s.OriginalGotCount)
    (inv : WindowInv s) : WindowInv t := by
  have hfun : Finset.filter (fun c => ReceivedSet t c = true) (Finset.range s.Window.InputCount) =
      Finset.filter (fun c => ReceivedSet s c = true) (Finset.range s.Window.InputCount) :=
    Finset.filter_congr (fun x _ => by rw [receivedSet_congr s t hS])
  refine ⟨?_, ?_, ?_, ?_, ?_, ?_, ?_, ?_⟩
  · rw [hO, hW]; exact inv.lenOrig
  · rw [hSC, hW]; exact inv.subCount
  · rw [hS, hSC]; exact inv.lenSub
  · intro i; rw [hS]; exact inv.gotLt i
  · intro i b hb hbt
    rw [hS] at hbt
    rw [hW]
    exact inv.bitsValid i b hb hbt
  · intro i; rw [hS]; exact inv.gotCount i
  · intro c hc
    rw [receivedSet_congr s t hS] at hc
    rw [hO]
    exact inv.received_isSome c hc
  · rw [hG, hW, hfun]; exact inv.gotTotal

/-- The effect of `MarkGotElement` plus a got-count increment on the window
invariant, stated over any state `t` with the expected field values. -/
theorem windowInv_mark_general (s t : DecoderState) (c : Nat)
    (inv : WindowInv s) (hc : c < s.Window.InputCount)
    (hsome : ((s.OriginalData.getD c ⟨none, 0⟩).Data).isSome = true)
    (hnotrecv : ReceivedSet s c = false)
    (hW : t.Window = s.Window) (hO : t.OriginalData = s.OriginalData)
    (hSC : t.SubwindowCount = s.SubwindowCount)
    (hS : t.Subwindows = s.Subwindows.set (c / kSubwindowSize)
      ⟨bitsetSet (s.Subwindows.getD (c / kSubwindowSize) ⟨0, 0⟩).Got (c % kSubwindowSize),
       (s.Subwindows.getD (c / kSubwindowSize) ⟨0, 0⟩).GotCount + 1⟩)
    (hG : t.OriginalGotCount = s.OriginalGotCount + 1) :
    WindowInv t := by
  have h64 : kSubwindowSize = 64 := rfl
  have hbit : c % kSubwindowSize < 64 := by rw [h64]; omega
  have hidxlt : c / kSubwindowSize < s.Subwindows.length := by
    rw [inv.lenSub, inv.subCount, h64]
    omega
  have hclear : (s.Subwindows.getD (c / kSubwindowSize) ⟨0, 0⟩).Got.testBit
      (c % kSubwindowSize) = false := by
    have hh := hnotrecv
    unfold ReceivedSet at hh
    rw [bitsetCheck_testBit] at hh
    have hmm : (c % kSubwindowSize) % 64 = c % kSubwindowSize := by rw [h64]; omega
    rw [hmm] at hh
    exact hh
  have hget : ∀ i, t.Subwindows.getD i ⟨0, 0⟩ =
      if c / kSubwindowSize = i then
        ⟨bitsetSet (s.Subwindows.getD (c / kSubwindowSize) ⟨0, 0⟩).Got (c % kSubwindowSize),
         (s.Subwindows.getD (c / kSubwindowSize) ⟨0, 0⟩).GotCount + 1⟩
      else s.Subwindows.getD i ⟨0, 0⟩ := by
    intro i
    rw [hS, getD_set]
    by_cases h : c / kSubwindowSize = i
    · rw [if_pos ⟨h, hidxlt⟩, if_pos h]
    · rw [if_neg (fun hh => h hh.1), if_neg h]
  have hrecv : ∀ x, ReceivedSet t x = (ReceivedSet s x || decide (x = c)) := by
    intro x
    unfold ReceivedSet
    rw [hget (x / kSubwindowSize)]
    by_cases hi : c / kSubwindowSize = x / kSubwindowSize
    · have hi2 : c / 64 = x / 64 := by rw [h64] at hi; exact hi
      rw [if_pos hi, ← hi]
      rw [bitsetCheck_testBit, bitsetCheck_testBit, bitsetSet_testBit]
      have hd : decide ((x % kSubwindowSize) % 64 = (c % kSubwindowSize) % 64) =
          decide (x = c) := by
        apply decide_eq_decide.mpr
        rw [h64]
        constructor <;> intro hz <;> omega
      rw [hd]
    · rw [if_neg hi]
      have hd : decide (x = c) = false := by
        apply decide_eq_false
        intro he
        exact hi (by rw [he])
      rw [hd, Bool.or_false]
  refine ⟨?_, ?_, ?_, ?_, ?_, ?_, ?_, ?_⟩
  · rw [hO, hW]; exact inv.lenOrig
  · rw [hSC, hW]; exact inv.subCount
  · rw [hS, hSC, List.length_set]; exact inv.lenSub
  · intro i
    rw [hget i]
    by_cases h : c / kSubwindowSize = i
    · rw [if_pos h]
      exact bitsetSet_lt _ _ (inv.gotLt (c / kSubwindowSize)) (by omega)
    · rw [if_neg h]; exact inv.gotLt i
  · intro i b hb hbt
    rw [hget i] at hbt
    rw [hW]
    by_cases h : c / kSubwindowSize = i
    · rw [if_pos h] at hbt
      simp only at hbt
      rw [bitsetSet_testBit] at hbt
      rcases (Bool.or_eq_true _ _).mp hbt with h1 | h2
      · rw [← h]
        exact inv.bitsValid (c / kSubwindowSize) b hb h1
      · have hb2 : b = (c % kSubwindowSize) % 64 := of_decide_eq_true h2
        rw [← h, h64]
        rw [h64] at hb2
        omega
    · rw [if_neg h] at hbt
      exact inv.bitsValid i b hb hbt
  · intro i
    rw [hget i]
    by_cases h : c / kSubwindowSize = i
    · rw [if_pos h]
      simp only
      rw [bitCount64_set _ _ hbit hclear]
      rw [inv.gotCount (c / kSubwindowSize)]
    · rw [if_neg h]; exact inv.gotCount i
  · intro x hx
    rw [hrecv x] at hx
    rw [hO]
    rcases (Bool.or_eq_true _ _).mp hx with h1 | h2
    · exact inv.received_isSome x h1
    · have hxc : x = c := of_decide_eq_true h2
      rw [hxc]
      exact hsome
  · rw [hG, hW]
    have hset2 : (Finset.range s.Window.InputCount).filter (fun x => ReceivedSet t x = true) =
        insert c ((Finset.range s.Window.InputCount).filter (fun x => ReceivedSet s x = true)) := by
      ext x
      simp only [Finset.mem_insert, Finset.mem_filter, Finset.mem_range, hrecv x,
        Bool.or_eq_true, decide_eq_true_eq]
      constructor
      · rintro ⟨hxk, h1 | h2⟩
        · exact Or.inr ⟨hxk, h1⟩
        · exact Or.inl h2
      · rintro (h1 | ⟨hxk, h2⟩)
        · subst h1; exact ⟨hc, Or.inr rfl⟩
        · exact ⟨hxk, Or.inl h2⟩
    rw [hset2]
    rw [Finset.card_insert_of_not_mem (by simp [Finset.mem_filter, hnotrecv])]
    rw [← inv.gotTotal]

/-- Storing a received column's data (without touching any bitset) keeps the
invariant. -/
theorem windowInv_set_some (s : DecoderState) (c : Nat) (data : List Nat) (mc : Nat)
    (inv : WindowInv s) :
    WindowInv { s with OriginalData := s.OriginalData.set c ⟨some data, mc⟩ } := by
  refine ⟨?_, inv.subCount, inv.lenSub, inv.gotLt, inv.bitsValid, inv.gotCount, ?_, inv.gotTotal⟩
  · rw [List.length_set]
    exact inv.lenOrig
  · intro x hx
    show (((s.OriginalData.set c ⟨some data, mc⟩).getD x ⟨none, 0⟩).Data).isSome = true
    rw [getD_set]
    by_cases he : c = x ∧ c < s.OriginalData.length
    · rw [if_pos he]
      rfl
    · rw [if_neg he]
      exact inv.received_isSome x hx

theorem windowInv_windowAddOriginal (s : DecoderState) (c : Nat) (data : List Nat)
    (inv : WindowInv s) (hc : c < s.Window.InputCount) :
    WindowInv (windowAddOriginal s c data).2 := by
  unfold windowAddOriginal
  by_cases hdup : ((s.OriginalData.getD c ⟨none, 0⟩).Data).isSome = true
  · rw [if_pos hdup]
    exact inv
  · rw [if_neg hdup]
    simp only
    have inv1 := windowInv_set_some s c data
      (s.OriginalData.getD c ⟨none, 0⟩).RecoveryMatrixColumn inv
    have hclen : c < s.OriginalData.length := by rw [inv.lenOrig]; exact hc
    have hsome1 : (((s.OriginalData.set c
        ⟨some data, (s.OriginalData.getD c ⟨none, 0⟩).RecoveryMatrixColumn⟩).getD c
        ⟨none, 0⟩).Data).isSome = true := by
      rw [getD_set, if_pos ⟨rfl, hclen⟩]
      rfl
    have hnr : ReceivedSet s c = false := by
      cases hrc : ReceivedSet s c
      · rfl
      · exact absurd (inv.received_isSome c hrc) hdup
    exact windowInv_mark_general _ _ c inv1 hc hsome1 hnr rfl rfl rfl rfl rfl

theorem windowInv_addOriginal (s : DecoderState) (sym : FecalSymbol) (inv : WindowInv s) :
    WindowInv (Decoder.AddOriginal s sym).2 := by
  unfold Decoder.AddOriginal
  by_cases hv : sym.Index ≥ s.Window.InputCount ∨ sym.Bytes ≠ s.Window.GetColumnBytes sym.Index
  · rw [if_pos hv]
    exact inv
  · rw [if_neg hv]
    push_neg at hv
    have h := windowInv_windowAddOriginal s sym.Index sym.Data inv hv.1
    simp only
    by_cases hr : (windowAddOriginal s sym.Index sym.Data).1 = true
    · rw [if_pos hr]
      exact windowInv_congr ((windowAddOriginal s sym.Index sym.Data).2) _ rfl rfl rfl rfl rfl h
    · rw [if_neg hr]
      exact h

theorem windowInv_addRecovery (s : DecoderState) (sym : FecalSymbol) (inv : WindowInv s) :
    WindowInv (Decoder.AddRecovery s sym).2 := by
  unfold Decoder.AddRecovery windowAddRecovery
  by_cases h1 : sym.Bytes ≠ s.Window.SymbolBytes
  · rw [if_pos h1]
    exact inv
  · rw [if_neg h1]
    simp only
    by_cases h2 : sym.Index ∈ s.RowSet
    · rw [if_pos h2]
      exact inv
    · rw [if_neg h2]
      exact windowInv_congr s _ rfl rfl rfl rfl rfl inv

/-! ### Decode-pipeline state preservation -/

/-- The fields of the decoder state that the decode pipeline (matrix build,
GE, elimination, back-substitution) never breaks: the window parameters, the
subwindow bitsets, the got-counter, the buffer lengths, and the presence of
original data (`Data` cells only ever go from `none` to `some`). -/
structure PipePreserves (s t : DecoderState) : Prop where
  hW : t.Window = s.Window
  hS : t.Subwindows = s.Subwindows
  hSC : t.SubwindowCount = s.SubwindowCount
  hG : t.OriginalGotCount = s.OriginalGotCount
  hOl : t.OriginalData.length = s.OriginalData.length
  hRl : t.RecoveryData.length = s.RecoveryData.length
  hRA : t.RecoveryAttempted = s.RecoveryAttempted
  hOs : ∀ c, ((s.OriginalData.getD c ⟨none, 0⟩).Data).isSome = true →
      ((t.OriginalData.getD c ⟨none, 0⟩).Data).isSome = true

theorem pipePreserves_refl (s : DecoderState) : PipePreserves s s :=
  ⟨rfl, rfl, rfl, rfl, rfl, rfl, rfl, fun _ h => h⟩

theorem pipePreserves_trans (s t u : DecoderState)
    (h1 : PipePreserves s t) (h2 : PipePreserves t u) : PipePreserves s u :=
  ⟨h2.hW.trans h1.hW, h2.hS.trans h1.hS, h2.hSC.trans h1.hSC, h2.hG.trans h1.hG,
   h2.hOl.trans h1.hOl, h2.hRl.trans h1.hRl, h2.hRA.trans h1.hRA,
   fun c h => h2.hOs c (h1.hOs c h)⟩

theorem pipePreserves_same (s t : DecoderState)
    (hW : t.Window = s.Window) (hS : t.Subwindows = s.Subwindows)
    (hSC : t.SubwindowCount = s.SubwindowCount) (hG : t.OriginalGotCount = s.OriginalGotCount)
    (hO : t.OriginalData = s.OriginalData)
    (hRl : t.RecoveryData.length = s.RecoveryData.length)
    (hRA : t.RecoveryAttempted = s.RecoveryAttempted) : PipePreserves s t :=
  ⟨hW, hS, hSC, hG, by rw [hO], hRl, hRA, fun c h => by rw [hO]; exact h⟩

theorem ppu_Matrix (s : DecoderState) (M : List (List Nat)) :
    PipePreserves s { s with Matrix := M } :=
  pipePreserves_same _ _ rfl rfl rfl rfl rfl rfl rfl

theorem ppu_Pivots (s : DecoderState) (P : List Nat) :
    PipePreserves s { s with Pivots := P } :=
  pipePreserves_same _ _ rfl rfl rfl rfl rfl rfl rfl

theorem ppu_MatrixPivots (s : DecoderState) (M : List (List Nat)) (P : List Nat) :
    PipePreserves s { s with Matrix := M, Pivots := P } :=
  pipePreserves_same _ _ rfl rfl rfl rfl rfl rfl rfl

theorem ppu_FilledRows (s : DecoderState) (F : Nat) :
    PipePreserves s { s with FilledRows := F } :=
  pipePreserves_same _ _ rfl rfl rfl rfl rfl rfl rfl

theorem ppu_GEResumePivot (s : DecoderState) (g : Nat) :
    PipePreserves s { s with GEResumePivot := g } :=
  pipePreserves_same _ _ rfl rfl rfl rfl rfl rfl rfl

theorem ppu_Columns (s : DecoderState) (C : List ColumnInfo) :
    PipePreserves s { s with Columns := C } :=
  pipePreserves_same _ _ rfl rfl rfl rfl rfl rfl rfl

theorem ppu_LaneSums (s : DecoderState) (L : List (List (Option (List Nat)))) :
    PipePreserves s { s with LaneSums := L } :=
  pipePreserves_same _ _ rfl rfl rfl rfl rfl rfl rfl

theorem ppu_RecoveredData (s : DecoderState) (R : List FecalSymbol) :
    PipePreserves s { s with RecoveredData := R } :=
  pipePreserves_same _ _ rfl rfl rfl rfl rfl rfl rfl

theorem ppu_RecoverySet (s : DecoderState) (i : Nat) (v : RecoveryInfo) :
    PipePreserves s { s with RecoveryData := s.RecoveryData.set i v } :=
  pipePreserves_same _ _ rfl rfl rfl rfl rfl (List.length_set _ _ _) rfl

theorem ppu_PivotsGE (s : DecoderState) (P : List Nat) (g F : Nat) (M : List (List Nat)) :
    PipePreserves s { s with Pivots := P, GEResumePivot := g, FilledRows := F, Matrix := M } :=
  pipePreserves_same _ _ rfl rfl rfl rfl rfl rfl rfl

theorem pipePreserves_foldl {α : Type} (f : DecoderState → α → DecoderState)
    (h : ∀ s' a, PipePreserves s' (f s' a)) :
    ∀ (l : List α) (s : DecoderState), PipePreserves s (l.foldl f s)
  | [], s => pipePreserves_refl s
  | a :: l, s =>
    pipePreserves_trans _ _ _ (h s a) (pipePreserves_foldl f h l (f s a))

theorem pipePreserves_foldl_pair {α β : Type} (f : β × DecoderState → α → β × DecoderState)
    (h : ∀ ac a, PipePreserves ac.2 (f ac a).2) :
    ∀ (l : List α) (acc : β × DecoderState), PipePreserves acc.2 (l.foldl f acc).2
  | [], acc => pipePreserves_refl _
  | a :: l, acc =>
    pipePreserves_trans _ _ _ (h acc a) (pipePreserves_foldl_pair f h l (f acc a))

theorem pp_markUsed (s : DecoderState) (idx : Nat) : PipePreserves s (markUsed s idx) :=
  pipePreserves_same _ _ rfl rfl rfl rfl rfl (List.length_set _ _ _) rfl

theorem pp_ResumeGE (s : DecoderState) (oldRows rows : Nat) :
    PipePreserves s (ResumeGE s oldRows rows) := by
  unfold ResumeGE
  by_cases h : oldRows ≥ rows
  · rw [if_pos h]
    exact pipePreserves_refl s
  · rw [if_neg h]
    exact pipePreserves_foldl _ (fun s' a => ppu_Matrix s' _) _ s

theorem pp_populateSet (s : DecoderState) (lc mc : Nat) :
    PipePreserves s { s with OriginalData := s.OriginalData.set lc ⟨(s.OriginalData.getD lc ⟨none, 0⟩).Data, mc⟩ } := by
  refine ⟨rfl, rfl, rfl, rfl, List.length_set _ _ _, rfl, rfl, ?_⟩
  intro c hc
  show (((s.OriginalData.set lc ⟨(s.OriginalData.getD lc ⟨none, 0⟩).Data, mc⟩).getD c
    ⟨none, 0⟩).Data).isSome = true
  rw [getD_set]
  by_cases he : lc = c ∧ lc < s.OriginalData.length
  · rw [if_pos he]
    show ((s.OriginalData.getD lc ⟨none, 0⟩).Data).isSome = true
    rw [he.1]
    exact hc
  · rw [if_neg he]
    exact hc

theorem pp_populateColumnsAux :
    ∀ (count : Nat) (s : DecoderState) (mc ns : Nat),
      PipePreserves s (populateColumnsAux s count mc ns).2
  | 0, s, _, _ => pipePreserves_refl s
  | count + 1, s, mc, ns => by
    unfold populateColumnsAux
    by_cases h : s.FindNextLostElement ns ≥ s.Window.InputCount
    · rw [if_pos h]
      exact pipePreserves_refl s
    · rw [if_neg h]
      exact pipePreserves_trans _ _ _
        (pp_populateSet s (s.FindNextLostElement ns) mc)
        (pp_populateColumnsAux count _ (mc + 1) (s.FindNextLostElement ns + 1))

theorem pp_PopulateColumns (s : DecoderState) (columns : Nat) :
    PipePreserves s (PopulateColumns s columns) := by
  unfold PopulateColumns
  exact pipePreserves_trans _ _ _ (pp_populateColumnsAux columns s 0 0) (ppu_Columns _ _)

theorem pp_appendRowsState (s1 : DecoderState) (newRows : List (List Nat)) (oldRows rows : Nat) :
    PipePreserves s1 (appendRowsState s1 newRows oldRows rows) := by
  unfold appendRowsState
  simp only []
  by_cases h : s1.GEResumePivot > 0
  · rw [if_pos h]
    exact pipePreserves_trans _ _ _
      (pipePreserves_trans _ _ _ (ppu_MatrixPivots s1 _ _) (pp_ResumeGE _ oldRows rows))
      (ppu_FilledRows _ rows)
  · rw [if_neg h]
    exact pipePreserves_trans _ _ _ (ppu_MatrixPivots s1 _ _) (ppu_FilledRows _ rows)

theorem pp_GenerateMatrix (s : DecoderState) : PipePreserves s (GenerateMatrix s) := by
  unfold GenerateMatrix
  simp only []
  by_cases h : s.Window.InputCount - s.OriginalGotCount ≠ s.Columns.length
  · rw [if_pos h]
    exact pipePreserves_trans _ _ _
      (pipePreserves_trans _ _ _
        (pp_PopulateColumns s (s.Window.InputCount - s.OriginalGotCount))
        (ppu_PivotsGE _ [] 0 0 []))
      (pp_appendRowsState _ _ _ _)
  · rw [if_neg h]
    exact pp_appendRowsState s _ _ _

theorem pp_pivotedGEAux :
    ∀ (fuel : Nat) (s : DecoderState) (pivot_i startJ : Nat),
      PipePreserves s (pivotedGEAux s fuel pivot_i startJ).2
  | 0, s, _, _ => pipePreserves_refl s
  | fuel + 1, s, pivot_i, startJ => by
    unfold pivotedGEAux
    simp only []
    cases hps : pivotSearchAux s pivot_i (s.RecoveryData.length - startJ) startJ with
    | none =>
      exact ppu_GEResumePivot s pivot_i
    | some pivot_j =>
      simp only []
      by_cases hlast : pivot_i ≥ s.Columns.length - 1
      · rw [if_pos hlast]
        by_cases hsw : pivot_i ≠ pivot_j
        · rw [if_pos hsw]
          exact pipePreserves_trans _ _ _ (ppu_Pivots s _) (pp_markUsed _ _)
        · rw [if_neg hsw]
          exact pp_markUsed s _
      · rw [if_neg hlast]
        by_cases hsw : pivot_i ≠ pivot_j
        · rw [if_pos hsw]
          refine pipePreserves_trans _ _ _ ?_ (pp_pivotedGEAux fuel _ (pivot_i + 1) (pivot_i + 1))
          refine pipePreserves_trans _ _ _ ?_ (ppu_Matrix _ _)
          exact pipePreserves_trans _ _ _ (ppu_Pivots s _) (pp_markUsed _ _)
        · rw [if_neg hsw]
          refine pipePreserves_trans _ _ _ ?_ (pp_pivotedGEAux fuel _ (pivot_i + 1) (pivot_i + 1))
          exact pipePreserves_trans _ _ _ (pp_markUsed s _) (ppu_Matrix _ _)

theorem pp_gaussElimAux :
    ∀ (fuel : Nat) (s : DecoderState) (pivot_i : Nat),
      PipePreserves s (gaussElimAux s fuel pivot_i).2
  | 0, s, _ => pipePreserves_refl s
  | fuel + 1, s, pivot_i => by
    unfold gaussElimAux
    simp only []
    by_cases hv : bget (s.Matrix.getD pivot_i []) pivot_i = 0
    · rw [if_pos hv]
      exact pp_pivotedGEAux (fuel + 1) s pivot_i (pivot_i + 1)
    · rw [if_neg hv]
      refine pipePreserves_trans _ _ _ ?_ (pp_gaussElimAux fuel _ (pivot_i + 1))
      exact pipePreserves_trans _ _ _ (pp_markUsed s pivot_i) (ppu_Matrix _ _)

theorem pp_GaussianElimination (s : DecoderState) :
    PipePreserves s (GaussianElimination s).2 := by
  unfold GaussianElimination
  by_cases h : s.GEResumePivot > 0
  · rw [if_pos h]
    exact pp_pivotedGEAux _ s _ _
  · rw [if_neg h]
    exact pp_gaussElimAux _ s 0

theorem pp_GetLaneSum (s : DecoderState) (laneIndex sumIndex : Nat) :
    PipePreserves s (GetLaneSum s laneIndex sumIndex).2 := by
  unfold GetLaneSum
  cases hm : (s.LaneSums.getD laneIndex []).getD sumIndex none with
  | some buf =>
    exact pipePreserves_refl s
  | none =>
    exact ppu_LaneSums s _

theorem pp_laneSumAdd (acc : XORSummer × DecoderState) (lane sumIndex : Nat) (b : Bool) :
    PipePreserves acc.2 (laneSumAdd acc lane sumIndex b).2 := by
  unfold laneSumAdd
  cases b
  · exact pipePreserves_refl _
  · exact pp_GetLaneSum acc.2 lane sumIndex

theorem pp_addLaneSumsDec (s : DecoderState) (lane opcode bitBase : Nat) (sm : XORSummer) :
    PipePreserves s (addLaneSumsDec s lane opcode bitBase sm).2 := by
  unfold addLaneSumsDec
  exact pipePreserves_trans _ _ _
    (pipePreserves_trans _ _ _
      (pp_laneSumAdd (sm, s) lane 0 (opcode.testBit bitBase))
      (pp_laneSumAdd _ lane 1 (opcode.testBit (bitBase + 1))))
    (pp_laneSumAdd _ lane 2 (opcode.testBit (bitBase + 2)))

theorem pp_elimLanePhase (s : DecoderState) (row : Nat) (sms : XORSummer × XORSummer) :
    PipePreserves s (elimLanePhase s row sms).2 := by
  unfold elimLanePhase
  exact pipePreserves_foldl_pair _
    (fun (ac : (XORSummer × XORSummer) × DecoderState) lane => pipePreserves_trans _ _ _
      (pp_addLaneSumsDec ac.2 lane (GetRowOpcode lane row) 0 ac.1.1)
      (pp_addLaneSumsDec _ lane (GetRowOpcode lane row) kColumnSumCount ac.1.2))
    (List.range kColumnLaneCount) (sms, s)

theorem pp_eliminateRowData (s : DecoderState) (i : Nat) :
    PipePreserves s (eliminateRowData s i) := by
  unfold eliminateRowData
  simp only []
  by_cases h : (s.RecoveryData.getD i ⟨[], 0, false⟩).UsedForSolution = false
  · rw [if_pos h]
    exact pipePreserves_refl s
  · rw [if_neg h]
    exact pipePreserves_trans _ _ _ (pp_elimLanePhase s _ _) (ppu_RecoverySet _ i _)

theorem pp_EliminateOriginalData (s : DecoderState) :
    PipePreserves s (EliminateOriginalData s) := by
  unfold EliminateOriginalData
  exact pipePreserves_foldl _ pp_eliminateRowData _ s

theorem pp_MultiplyLowerTriangle (s : DecoderState) :
    PipePreserves s (MultiplyLowerTriangle s) := by
  unfold MultiplyLowerTriangle
  refine pipePreserves_foldl _ ?_ _ s
  intro s2 col_i
  try simp only []
  refine pipePreserves_foldl _ ?_ _ s2
  intro s3 col_j
  try simp only []
  by_cases h : bget (s3.Matrix.getD (s3.Pivots.getD col_j 0) []) col_i = 0
  · rw [if_pos h]
    exact pipePreserves_refl s3
  · rw [if_neg h]
    exact ppu_RecoverySet s3 _ _

theorem pp_backSubSet3 (s : DecoderState) (mri : Nat) (v : RecoveryInfo) (c : Nat)
    (d : List Nat) (mc ci : Nat) (sym : FecalSymbol) :
    PipePreserves s { s with
      RecoveryData := s.RecoveryData.set mri v,
      OriginalData := s.OriginalData.set c ⟨some d, mc⟩,
      RecoveredData := s.RecoveredData.set ci sym } := by
  refine ⟨rfl, rfl, rfl, rfl, List.length_set _ _ _, List.length_set _ _ _, rfl, ?_⟩
  intro c2 hc2
  show (((s.OriginalData.set c ⟨some d, mc⟩).getD c2 ⟨none, 0⟩).Data).isSome = true
  rw [getD_set]
  by_cases he : c = c2 ∧ c < s.OriginalData.length
  · rw [if_pos he]
    rfl
  · rw [if_neg he]
    exact hc2

theorem pp_backSubStep (s2 : DecoderState) (col_i : Nat) :
    PipePreserves s2 (backSubStep s2 col_i) := by
  unfold backSubStep
  simp only []
  refine pipePreserves_trans _ _ _ ?_ (pipePreserves_foldl _ ?_ _ _)
  · exact pp_backSubSet3 s2 _ _ _ _ _ _ _
  all_goals intro s4 col_j
  try simp only []
  by_cases h : bget (s4.Matrix.getD (s4.Pivots.getD col_j 0) []) col_i = 0
  · rw [if_pos h]
    exact pipePreserves_refl s4
  · rw [if_neg h]
    exact ppu_RecoverySet s4 _ _

theorem pp_BackSubstitution (s : DecoderState) : PipePreserves s (BackSubstitution s) := by
  unfold BackSubstitution
  simp only []
  exact pipePreserves_trans _ _ _ (ppu_RecoveredData s _)
    (pipePreserves_foldl _ pp_backSubStep _ _)

theorem pp_decodePipeline (s1 : DecoderState) :
    PipePreserves s1 (decodePipeline s1).2.2 := by
  unfold decodePipeline
  simp only []
  by_cases h : (GaussianElimination (GenerateMatrix s1)).1 = false
  · rw [if_pos h]
    exact pipePreserves_trans _ _ _ (pp_GenerateMatrix s1) (pp_GaussianElimination _)
  · rw [if_neg h]
    exact pipePreserves_trans _ _ _
      (pipePreserves_trans _ _ _
        (pipePreserves_trans _ _ _
          (pipePreserves_trans _ _ _ (pp_GenerateMatrix s1) (pp_GaussianElimination _))
          (pp_EliminateOriginalData _))
        (pp_MultiplyLowerTriangle _))
      (pp_BackSubstitution _)

theorem windowInv_of_pipe (s t : DecoderState) (pp : PipePreserves s t)
    (inv : WindowInv s) : WindowInv t := by
  have hfilter : Finset.filter (fun c => ReceivedSet t c = true) (Finset.range s.Window.InputCount) =
      Finset.filter (fun c => ReceivedSet s c = true) (Finset.range s.Window.InputCount) :=
    Finset.filter_congr (fun x _ => by rw [receivedSet_congr s t pp.hS])
  refine ⟨?_, ?_, ?_, ?_, ?_, ?_, ?_, ?_⟩
  · rw [pp.hOl, pp.hW]; exact inv.lenOrig
  · rw [pp.hSC, pp.hW]; exact inv.subCount
  · rw [pp.hS, pp.hSC]; exact inv.lenSub
  · intro i; rw [pp.hS]; exact inv.gotLt i
  · intro i b hb hbt
    rw [pp.hS] at hbt
    rw [pp.hW]
    exact inv.bitsValid i b hb hbt
  · intro i; rw [pp.hS]; exact inv.gotCount i
  · intro c hc
    rw [receivedSet_congr s t pp.hS] at hc
    exact pp.hOs c (inv.received_isSome c hc)
  · rw [pp.hG, pp.hW, hfilter]; exact inv.gotTotal

theorem windowInv_decode (s : DecoderState) (inv : WindowInv s) :
    WindowInv (Decoder.Decode s).2.2 := by
  unfold Decoder.Decode
  by_cases h1 : s.OriginalGotCount ≥ s.Window.InputCount
  · rw [if_pos h1]; exact inv
  · rw [if_neg h1]
    by_cases h2 : s.OriginalGotCount + s.RecoveryData.length < s.Window.InputCount
    · rw [if_pos h2]; exact inv
    · rw [if_neg h2]
      by_cases h3 : s.RecoveryAttempted = true
      · rw [if_pos h3]; exact inv
      · rw [if_neg h3]
        exact windowInv_of_pipe _ _ (pp_decodePipeline { s with RecoveryAttempted := true })
          (windowInv_congr s _ rfl rfl rfl rfl rfl inv)

/-- The decoder states reachable through the public API: a successful
`Initialize` followed by any sequence of `AddOriginal`, `AddRecovery` and
`Decode` calls. -/
inductive Reach : DecoderState → Prop where
  | start (K T : Nat) (s : DecoderState) :
      Decoder.Initialize K T = (FecalResult.Success, some s) → Reach s
  | addOriginal (s : DecoderState) (sym : FecalSymbol) :
      Reach s → Reach (Decoder.AddOriginal s sym).2
  | addRecovery (s : DecoderState) (sym : FecalSymbol) :
      Reach s → Reach (Decoder.AddRecovery s sym).2
  | decode (s : DecoderState) : Reach s → Reach (Decoder.Decode s).2.2

theorem reach_windowInv (s : DecoderState) (h : Reach s) : WindowInv s := by
  induction h with
  | start K T s h0 => exact windowInv_fresh K T s h0
  | addOriginal s sym _ ih => exact windowInv_addOriginal s sym ih
  | addRecovery s sym _ ih => exact windowInv_addRecovery s sym ih
  | decode s _ ih => exact windowInv_decode s ih

/-! ### Claims C4, C6, C9: decoder API behaviour -/

/-- An all-zero decoder state, used only as the `Option.getD` default when
extracting the state a successful `Initialize` returns. -/
def emptyDecoderState : DecoderState :=
  ⟨⟨0, 0, 0, 0⟩, [], [], 0, [], 0, [], false, [], [], [], 0, 0, [], []⟩

theorem addOriginal_noop (s : DecoderState) (sym : FecalSymbol)
    (hv : ¬(sym.Index ≥ s.Window.InputCount ∨ sym.Bytes ≠ s.Window.GetColumnBytes sym.Index))
    (hdup : ((s.OriginalData.getD sym.Index ⟨none, 0⟩).Data).isSome = true) :
    Decoder.AddOriginal s sym = (FecalResult.Success, s) := by
  unfold Decoder.AddOriginal windowAddOriginal
  rw [if_neg hv, if_pos hdup]
  rfl

theorem addRecovery_noop (s : DecoderState) (sym : FecalSymbol)
    (hv : sym.Bytes = s.Window.SymbolBytes) (hdup : sym.Index ∈ s.RowSet) :
    Decoder.AddRecovery s sym = (FecalResult.Success, s) := by
  unfold Decoder.AddRecovery windowAddRecovery
  rw [if_neg (fun hh => hh hv), if_pos hdup]
  rfl

theorem addOriginal_Window (s : DecoderState) (sym : FecalSymbol) :
    (Decoder.AddOriginal s sym).2.Window = s.Window := by
  unfold Decoder.AddOriginal windowAddOriginal
  by_cases hv : sym.Index ≥ s.Window.InputCount ∨ sym.Bytes ≠ s.Window.GetColumnBytes sym.Index
  · rw [if_pos hv]
  · rw [if_neg hv]
    by_cases hdup : ((s.OriginalData.getD sym.Index ⟨none, 0⟩).Data).isSome = true
    · rw [if_pos hdup]
      rfl
    · rw [if_neg hdup]
      rfl

theorem addOriginal_some (s : DecoderState) (sym : FecalSymbol)
    (hlen : s.Window.InputCount ≤ s.OriginalData.length)
    (hv : ¬(sym.Index ≥ s.Window.InputCount ∨ sym.Bytes ≠ s.Window.GetColumnBytes sym.Index)) :
    (((Decoder.AddOriginal s sym).2.OriginalData.getD sym.Index ⟨none, 0⟩).Data).isSome = true := by
  have hidx : sym.Index < s.OriginalData.length := by
    push_neg at hv
    omega
  unfold Decoder.AddOriginal windowAddOriginal
  rw [if_neg hv]
  by_cases hdup : ((s.OriginalData.getD sym.Index ⟨none, 0⟩).Data).isSome = true
  · rw [if_pos hdup]
    exact hdup
  · rw [if_neg hdup]
    show (((s.OriginalData.set sym.Index ⟨some sym.Data, (s.OriginalData.getD sym.Index ⟨none, 0⟩).RecoveryMatrixColumn⟩).getD sym.Index ⟨none, 0⟩).Data).isSome = true
    rw [getD_set, if_pos ⟨rfl, hidx⟩]
    rfl

theorem addRecovery_Window (s : DecoderState) (sym : FecalSymbol) :
    (Decoder.AddRecovery s sym).2.Window = s.Window := by
  unfold Decoder.AddRecovery windowAddRecovery
  by_cases hv : sym.Bytes ≠ s.Window.SymbolBytes
  · rw [if_pos hv]
  · rw [if_neg hv]
    by_cases hdup : sym.Index ∈ s.RowSet
    · rw [if_pos hdup]
      rfl
    · rw [if_neg hdup]
      rfl

theorem addRecovery_mem (s : DecoderState) (sym : FecalSymbol)
    (hv : sym.Bytes = s.Window.SymbolBytes) :
    sym.Index ∈ (Decoder.AddRecovery s sym).2.RowSet := by
  unfold Decoder.AddRecovery windowAddRecovery
  rw [if_neg (fun hh => hh hv)]
  by_cases hdup : sym.Index ∈ s.RowSet
  · rw [if_pos hdup]
    exact hdup
  · rw [if_neg hdup]
    show sym.Index ∈ s.RowSet ++ [sym.Index]
    exact List.mem_append.mpr (Or.inr (List.mem_singleton.mpr rfl))

/-- C6: duplicate adds are silent no-ops returning `Success`.  An
`AddOriginal` whose column already has data, or an `AddRecovery` whose row
is already present, returns `Success` and leaves the decoder state
completely unchanged (in particular `RecoveryAttempted` is not cleared);
consequently, for a reachable decoder, repeating the same valid add leaves
the state unchanged after the second call. -/
theorem C6_idempotent_adds (s : DecoderState) (sym symR : FecalSymbol) (hr : Reach s)
    (hv : ¬(sym.Index ≥ s.Window.InputCount ∨ sym.Bytes ≠ s.Window.GetColumnBytes sym.Index))
    (hvR : symR.Bytes = s.Window.SymbolBytes) :
    (((s.OriginalData.getD sym.Index ⟨none, 0⟩).Data).isSome = true →
      Decoder.AddOriginal s sym = (FecalResult.Success, s)) ∧
    (symR.Index ∈ s.RowSet → Decoder.AddRecovery s symR = (FecalResult.Success, s)) ∧
    Decoder.AddOriginal (Decoder.AddOriginal s sym).2 sym =
      (FecalResult.Success, (Decoder.AddOriginal s sym).2) ∧
    Decoder.AddRecovery (Decoder.AddRecovery s symR).2 symR =
      (FecalResult.Success, (Decoder.AddRecovery s symR).2) := by
  have inv := reach_windowInv s hr
  have hlen : s.Window.InputCount ≤ s.OriginalData.length := le_of_eq inv.lenOrig.symm
  refine ⟨fun hdup => addOriginal_noop s sym hv hdup,
          fun hdupR => addRecovery_noop s symR hvR hdupR, ?_, ?_⟩
  · refine addOriginal_noop _ sym ?_ (addOriginal_some s sym hlen hv)
    rw [addOriginal_Window s sym]
    exact hv
  · refine addRecovery_noop _ symR ?_ (addRecovery_mem s symR hvR)
    rw [addRecovery_Window s symR]
    exact hvR

/-- C6 witness: on the fresh (2, 2) decoder, a second identical `AddRecovery`
returns `Success` with the state unchanged. -/
theorem C6_witness :
    Decoder.AddRecovery (Decoder.AddRecovery ((Decoder.Initialize 2 2).2.getD emptyDecoderState) ⟨[9], 1, 5⟩).2 ⟨[9], 1, 5⟩ =
      (FecalResult.Success, (Decoder.AddRecovery ((Decoder.Initialize 2 2).2.getD emptyDecoderState) ⟨[9], 1, 5⟩).2) :=
  (C6_idempotent_adds _ ⟨[1], 1, 0⟩ ⟨[9], 1, 5⟩ (Reach.start 2 2 _ (by rfl))
    (by decide) (by rfl)).2.2.2

/-- C9: recovery identity with no loss.  If a reachable decoder has received
every one of its `InputCount` original columns, `Decode` is the identity
apart from its result code: it returns `Success`, hands back no recovered
symbols, and leaves the state untouched. -/
theorem C9_no_loss_identity (s : DecoderState) (hr : Reach s)
    (hall : ∀ c, c < s.Window.InputCount → ReceivedSet s c = true) :
    Decoder.Decode s = (FecalResult.Success, [], s) := by
  have inv := reach_windowInv s hr
  have hgot : s.OriginalGotCount = s.Window.InputCount := by
    rw [inv.gotTotal]
    have hf : (Finset.range s.Window.InputCount).filter (fun c => ReceivedSet s c = true) =
        Finset.range s.Window.InputCount := by
      apply Finset.filter_true_of_mem
      intro x hx
      exact hall x (Finset.mem_range.mp hx)
    rw [hf, Finset.card_range]
  unfold Decoder.Decode
  rw [if_pos (ge_of_eq hgot)]

/-- C9 witness: the (1, 1) decoder that has received its single column. -/
theorem C9_witness :
    Decoder.Decode (Decoder.AddOriginal ((Decoder.Initialize 1 1).2.getD emptyDecoderState) ⟨[5], 1, 0⟩).2 =
      (FecalResult.Success, [], (Decoder.AddOriginal ((Decoder.Initialize 1 1).2.getD emptyDecoderState) ⟨[5], 1, 0⟩).2) :=
  C9_no_loss_identity _ (Reach.addOriginal _ _ (Reach.start 1 1 _ (by rfl)))
    (by
      intro c hc
      have hc1 : c < 1 := hc
      have hc0 : c = 0 := by omega
      subst hc0
      rfl)

/-- C4 counterexample: for the (1, 1) decoder that has received its single
original, two consecutive `Decode` calls with no intervening add BOTH return
`Success` — the second is not `NeedMoreData`, because the complete-data
fast path returns before the `RecoveryAttempted` flag is consulted. -/
theorem C4_counterexample :
    (Decoder.Decode (Decoder.AddOriginal ((Decoder.Initialize 1 1).2.getD emptyDecoderState) ⟨[5], 1, 0⟩).2).1 = FecalResult.Success ∧
    (Decoder.Decode (Decoder.Decode (Decoder.AddOriginal ((Decoder.Initialize 1 1).2.getD emptyDecoderState) ⟨[5], 1, 0⟩).2).2.2).1 = FecalResult.Success := by
  exact ⟨rfl, rfl⟩

/-- C4 (amended): when the first `Decode` leaves the decoder still missing
original data (`OriginalGotCount < InputCount` — the case the suppression
flag exists for), a second `Decode` with no intervening add returns
`NeedMoreData`; and a successful (accepted, non-duplicate) `AddOriginal` or
`AddRecovery` clears the `RecoveryAttempted` flag, re-enabling a fresh
attempt.  (Unqualified, the spec sentence is false: a decoder holding all
its originals answers `Success` to every `Decode` call.) -/
theorem C4_decode_suppression (s : DecoderState) (sym symR : FecalSymbol)
    (h : (Decoder.Decode s).2.2.OriginalGotCount < (Decoder.Decode s).2.2.Window.InputCount) :
    (Decoder.Decode (Decoder.Decode s).2.2).1 = FecalResult.NeedMoreData ∧
    (¬(sym.Index ≥ s.Window.InputCount ∨ sym.Bytes ≠ s.Window.GetColumnBytes sym.Index) →
      ((s.OriginalData.getD sym.Index ⟨none, 0⟩).Data).isSome = false →
      (Decoder.AddOriginal s sym).2.RecoveryAttempted = false) ∧
    (symR.Bytes = s.Window.SymbolBytes → symR.Index ∉ s.RowSet →
      (Decoder.AddRecovery s symR).2.RecoveryAttempted = false) := by
  refine ⟨?_, ?_, ?_⟩
  · by_cases h1 : s.OriginalGotCount ≥ s.Window.InputCount
    · exfalso
      have ht : (Decoder.Decode s).2.2 = s := by
        unfold Decoder.Decode
        rw [if_pos h1]
      rw [ht] at h
      omega
    · by_cases h2 : s.OriginalGotCount + s.RecoveryData.length < s.Window.InputCount
      · have ht : (Decoder.Decode s).2.2 = s := by
          unfold Decoder.Decode
          rw [if_neg h1, if_pos h2]
        rw [ht]
        unfold Decoder.Decode
        rw [if_neg h1, if_pos h2]
      · by_cases h3 : s.RecoveryAttempted = true
        · have ht : (Decoder.Decode s).2.2 = s := by
            unfold Decoder.Decode
            rw [if_neg h1, if_neg h2, if_pos h3]
          rw [ht]
          unfold Decoder.Decode
          rw [if_neg h1, if_neg h2, if_pos h3]
        · have ht : (Decoder.Decode s).2.2 =
              (decodePipeline { s with RecoveryAttempted := true }).2.2 := by
            unfold Decoder.Decode
            rw [if_neg h1, if_neg h2, if_neg h3]
          have pp := pp_decodePipeline { s with RecoveryAttempted := true }
          rw [ht] at h ⊢
          unfold Decoder.Decode
          rw [if_neg (Nat.not_le.mpr h)]
          by_cases hg2 : (decodePipeline { s with RecoveryAttempted := true }).2.2.OriginalGotCount +
              (decodePipeline { s with RecoveryAttempted := true }).2.2.RecoveryData.length <
              (decodePipeline { s with RecoveryAttempted := true }).2.2.Window.InputCount
          · rw [if_pos hg2]
          · rw [if_neg hg2, if_pos pp.hRA]
  · intro hv hnone
    unfold Decoder.AddOriginal
    rw [if_neg hv]
    have hcond : ¬(((s.OriginalData.getD sym.Index ⟨none, 0⟩).Data).isSome = true) := by
      rw [hnone]
      exact Bool.false_ne_true
    have hr1 : (windowAddOriginal s sym.Index sym.Data).1 = true := by
      unfold windowAddOriginal
      rw [if_neg hcond]
    simp only [hr1, if_pos]
  · intro hvR hnotmem
    unfold Decoder.AddRecovery
    rw [if_neg (fun hh => hh hvR)]
    have hr1 : (windowAddRecovery s symR.Data symR.Index).1 = true := by
      unfold windowAddRecovery
      rw [if_neg hnotmem]
    simp only [hr1, if_pos]

/-- C4 witness: a (2, 2) decoder with no originals and two (garbage)
recovery rows: the first `Decode` attempts recovery, a second immediately
following call reports `NeedMoreData`. -/
theorem C4_witness :
    (Decoder.Decode (Decoder.AddRecovery (Decoder.AddRecovery ((Decoder.Initialize 2 2).2.getD emptyDecoderState) ⟨[0], 1, 0⟩).2 ⟨[0], 1, 1⟩).2).2.2.OriginalGotCount <
      (Decoder.Decode (Decoder.AddRecovery (Decoder.AddRecovery ((Decoder.Initialize 2 2).2.getD emptyDecoderState) ⟨[0], 1, 0⟩).2 ⟨[0], 1, 1⟩).2).2.2.Window.InputCount ∧
    (Decoder.Decode (Decoder.Decode (Decoder.AddRecovery (Decoder.AddRecovery ((Decoder.Initialize 2 2).2.getD emptyDecoderState) ⟨[0], 1, 0⟩).2 ⟨[0], 1, 1⟩).2).2.2).1 = FecalResult.NeedMoreData :=
  ⟨by decide,
   (C4_decode_suppression _ ⟨[1], 1, 0⟩ ⟨[9], 1, 0⟩ (by decide)).1⟩

/-! ### Claim C10: `FindNextLostElement` -/

/-- `findNextAux` with the defensive `nextElement > InputCount` clamp
removed (the claim is that the clamp is dead code). -/
def findNextAuxNC (s : DecoderState) : Nat → Nat → Nat → Nat
  | 0, _, _ => s.Window.InputCount
  | fuel + 1, subwindowIndex, bitIndex =>
    let sw := s.Subwindows.getD subwindowIndex ⟨0, 0⟩
    if sw.GotCount < kSubwindowSize then
      let b := bitsetFindFirstClear sw.Got bitIndex
      if b ≥ kSubwindowSize then findNextAuxNC s fuel (subwindowIndex + 1) 0
      else subwindowIndex * kSubwindowSize + b
    else findNextAuxNC s fuel (subwindowIndex + 1) 0

/-- `FindNextLostElement` without the defensive clamp. -/
def DecoderState.FindNextLostElementNC (s : DecoderState) (elementStart : Nat) : Nat :=
  if elementStart ≥ s.Window.InputCount then s.Window.InputCount
  else findNextAuxNC s (s.SubwindowCount - elementStart / kSubwindowSize)
    (elementStart / kSubwindowSize) (elementStart % kSubwindowSize)

theorem ctzAux_spec : ∀ (fuel x : Nat), x ≠ 0 → x < 2 ^ fuel →
    x.testBit (ctzAux fuel x) = true ∧ ∀ j, j < ctzAux fuel x → x.testBit j = false
  | 0, x, hx, hlt => absurd (Nat.lt_one_iff.mp hlt) hx
  | fuel + 1, x, hx, hlt => by
    unfold ctzAux
    by_cases h : x % 2 = 1
    · rw [if_pos h]
      refine ⟨?_, fun j hj => absurd hj (by omega)⟩
      rw [Nat.testBit_zero]
      simp [h]
    · rw [if_neg h]
      have hx2 : x / 2 ≠ 0 := by omega
      have hlt2 : x / 2 < 2 ^ fuel := by
        have hp : (2 : Nat) ^ (fuel + 1) = 2 * 2 ^ fuel := by ring
        omega
      have ih := ctzAux_spec fuel (x / 2) hx2 hlt2
      constructor
      · rw [Nat.testBit_succ]
        exact ih.1
      · intro j hj
        cases j with
        | zero =>
          rw [Nat.testBit_zero]
          simp [h]
        | succ j2 =>
          rw [Nat.testBit_succ]
          exact ih.2 j2 (by omega)
